import Mathlib

/-!
Verification of the FlightChecker round-trip matching core (src/main.py).

The Python code is shallowly embedded:
* Python `dict` becomes an association list with first-match lookup
  (`alookup`) and in-place-update insertion (`ainsert`), matching the
  lookup/assignment semantics of `dict` (unique keys once built).
* `datetime.date` becomes `PyDate` (proleptic Gregorian, unbounded years;
  Python's year-9999 `OverflowError` edge is outside the modelled range).
  `date + timedelta(days=n)` is `addDays`, iterating the successor-day
  function; `strptime(s, "%Y-%m-%d").date()` is `parseISO` and
  `strftime("%Y-%m-%d")` is `formatISO`.
* Prices (Python floats) are modelled as rationals.
* `list.sort(key=...)` (a stable sort) is modelled by a structurally
  recursive stable insertion sort `isort`; a stable sort w.r.t. a total
  transitive comparison is unique, so this agrees with CPython's sort.
* The external HTTP fetch is a parameter `source : CacheKey → SourceResp`;
  transport/JSON failures are `SourceResp.fail` (collapsed to an empty map
  by `fetch_cheapest_per_day_map`, as in the code).  A truthy non-dict
  `price` field makes `f["price"].get("value")` raise `AttributeError`,
  which is NOT caught by `fetch_cheapest_per_day_map` (it only catches
  `RequestException` and `ValueError`); this is modelled by
  `Except.error attrErrMsg` propagating to `Worker.run`'s top-level catch.
* `Worker.run`'s observable outcome is `workerRun`: either the payload the
  `finished` signal emits (`.ok`), or the message of an unhandled exception
  escaping `run` with nothing emitted (`.error`).  In the source, `combined`
  is first bound at line 235, inside the `try` block and after the route
  loop, so on any fault during the loop the `except` block sets `error` but
  the `finished.emit` call at line 243 raises `UnboundLocalError` reading
  `combined`, and the signal is never emitted.
* The non-terminating `while True` loop of `months_between` when
  `start > end` is modelled by exact fuel: `monthsBetween` returns `none`
  exactly when the Python loop would not terminate.
* The fetch log (`log` fields) is verification instrumentation recording
  the keys passed to the external fetch, used to state cache properties;
  it does not alter any computed value.
-/

/-! ### Association lists (Python dict) -/

def alookup {α β : Type} [DecidableEq α] (k : α) : List (α × β) → Option β
  | [] => none
  | (k', v) :: rest => if k' = k then some v else alookup k rest

def ainsert {α β : Type} [DecidableEq α] (k : α) (v : β) : List (α × β) → List (α × β)
  | [] => [(k, v)]
  | (k', v') :: rest => if k' = k then (k, v) :: rest else (k', v') :: ainsert k v rest

/-! ### Calendar dates (`datetime.date`) -/

def isLeap (y : Nat) : Bool := y % 4 == 0 && (y % 100 != 0 || y % 400 == 0)

def daysInMonth (y m : Nat) : Nat :=
  if m = 2 then (if isLeap y then 29 else 28)
  else if m = 4 ∨ m = 6 ∨ m = 9 ∨ m = 11 then 30
  else 31

structure PyDate where
  year : Nat
  month : Nat
  day : Nat
deriving DecidableEq, Repr

def validDate (dt : PyDate) : Prop :=
  1 ≤ dt.year ∧ 1 ≤ dt.month ∧ dt.month ≤ 12 ∧ 1 ≤ dt.day ∧
    dt.day ≤ daysInMonth dt.year dt.month

instance (dt : PyDate) : Decidable (validDate dt) := by
  unfold validDate; infer_instance

/-- Lexicographic comparison of dates; on valid dates this coincides with
Python's `date` ordering. -/
def dateLe (a b : PyDate) : Prop :=
  a.year < b.year ∨ (a.year = b.year ∧
    (a.month < b.month ∨ (a.month = b.month ∧ a.day ≤ b.day)))

instance (a b : PyDate) : Decidable (dateLe a b) := by
  unfold dateLe; infer_instance

/-- Successor day with month/year rollover. -/
def nextDay (dt : PyDate) : PyDate :=
  if dt.day < daysInMonth dt.year dt.month then ⟨dt.year, dt.month, dt.day + 1⟩
  else if dt.month < 12 then ⟨dt.year, dt.month + 1, 1⟩
  else ⟨dt.year + 1, 1, 1⟩

/-- Model of `dt + timedelta(days=n)` for `n ≥ 0`. -/
def addDays (dt : PyDate) (n : Nat) : PyDate := Nat.iterate nextDay n dt

/-! ### ISO date strings: `strptime`/`strftime` with format `%Y-%m-%d` -/

/-- Model of `str.split`-like tokenisation on a single separator character,
as performed by `strptime`'s `%Y-%m-%d` pattern. -/
def splitOnChar (sep : Char) : List Char → List (List Char)
  | [] => [[]]
  | c :: cs =>
    let r := splitOnChar sep cs
    if c = sep then [] :: r
    else
      match r with
      | [] => [[c]]
      | g :: gs => (c :: g) :: gs

def digitsToNat? (cs : List Char) : Option Nat :=
  if cs ≠ [] ∧ cs.all Char.isDigit then
    some (cs.foldl (fun n c => n * 10 + (c.toNat - 48)) 0)
  else none

/-- Model of `datetime.strptime(s, "%Y-%m-%d").date()`: the `%Y` field is
exactly four digits, `%m` and `%d` are one or two digits with `%m` in 1..12
and the day validated against the month length (otherwise `ValueError`). -/
def parseISO (s : String) : Option PyDate :=
  match splitOnChar '-' s.data with
  | [ys, ms, ds] =>
    match digitsToNat? ys, digitsToNat? ms, digitsToNat? ds with
    | some y, some m, some d =>
      if ys.length = 4 ∧ ms.length ≤ 2 ∧ ds.length ≤ 2 ∧
          1 ≤ y ∧ 1 ≤ m ∧ m ≤ 12 ∧ 1 ≤ d ∧ d ≤ daysInMonth y m
      then some ⟨y, m, d⟩ else none
    | _, _, _ => none
  | _ => none

def padDigits (w n : Nat) : List Char :=
  let ds := Nat.toDigits 10 n
  List.replicate (w - ds.length) '0' ++ ds

/-- Model of `dt.strftime("%Y-%m-%d")` (zero-padded fields). -/
def formatISO (dt : PyDate) : String :=
  String.mk (padDigits 4 dt.year ++ '-' :: padDigits 2 dt.month ++ '-' :: padDigits 2 dt.day)

/-! ### Data model -/

structure DayQuote where
  day : String
  price : ℚ
  depISO : Option String
  arrISO : Option String
deriving DecidableEq, Repr

structure Candidate where
  total : ℚ
  out_day : String
  ret_day : String
  out_price : ℚ
  ret_price : ℚ
  dep_o : Option String
  arr_o : Option String
  dep_r : Option String
  arr_r : Option String
  route_label : String
deriving DecidableEq, Repr

/-- Value of a fare record's `price` field when it is truthy: either a
truthy dict (whose `value` may be absent or non-numeric, modelled by
`Option ℚ`), or a truthy non-dict value, on which `.get("value")` raises
`AttributeError`. -/
inductive RawPrice : Type
  | pdict (value : Option ℚ)
  | other (s : String)
deriving DecidableEq, Repr

/-- One raw fare record from the source JSON.  `price = none` models an
absent or falsy `price` field; `day = none` models an absent `day` (an
empty string is also falsy and is skipped separately). -/
structure RawFare where
  unavailable : Bool
  price : Option RawPrice
  day : Option String
  dep : Option String
  arr : Option String
deriving DecidableEq, Repr

/-- Response of the external price source: `fail` covers any transport or
JSON error (collapsed to an empty map), `ok` carries the fares list. -/
inductive SourceResp : Type
  | fail
  | ok (fares : List RawFare)
deriving DecidableEq, Repr

/-- The per-day record built by `fetch_cheapest_per_day_map`:
`{"price": float(p), "dep": dep, "arr": arr}`. -/
structure RawQuote where
  price : ℚ
  dep : Option String
  arr : Option String
deriving DecidableEq, Repr

abbrev CacheKey : Type := String × String × Nat × Nat × String

abbrev MonthMap : Type := List (String × DayQuote)

abbrev Cache : Type := List (CacheKey × MonthMap)

def attrErrMsg : String := "AttributeError: object has no attribute get"

def nonTermMsg : String := "months_between does not terminate"

/-- Model of the fare-processing loop of `fetch_cheapest_per_day_map`
(lines 31-41): skip records that are unavailable or have a falsy `price`;
`f["price"].get("value")` raises on a truthy non-dict `price`; keep the
record iff the day string is truthy and the value numeric.  The result
dict is built left to right, later records overwriting equal day keys. -/
def processFaresAux (acc : List (String × RawQuote)) :
    List RawFare → Except String (List (String × RawQuote))
  | [] => .ok acc
  | f :: rest =>
    if f.unavailable || f.price.isNone then processFaresAux acc rest
    else
      match f.price with
      | none => processFaresAux acc rest
      | some (.other _) => .error attrErrMsg
      | some (.pdict v) =>
        match v with
        | none => processFaresAux acc rest
        | some p =>
          if f.day.getD "" ≠ "" then
            processFaresAux (ainsert (f.day.getD "") ⟨p, f.dep, f.arr⟩ acc) rest
          else processFaresAux acc rest

def processFares (fares : List RawFare) : Except String (List (String × RawQuote)) :=
  processFaresAux [] fares

/-- Model of `fetch_cheapest_per_day_map` (lines 15-41): any transport or
JSON failure yields an empty map; otherwise the fares are processed. -/
def fetch_cheapest_per_day_map (source : CacheKey → SourceResp) (k : CacheKey) :
    Except String (List (String × RawQuote)) :=
  match source k with
  | .fail => .ok []
  | .ok fares => processFares fares

/-- Line 105: `{k: DayQuote(k, v["price"], v.get("dep"), v.get("arr")) ...}`. -/
def mapQuotes (raw : List (String × RawQuote)) : MonthMap :=
  raw.map (fun e => (e.1, ⟨e.1, e.2.price, e.2.dep, e.2.arr⟩))

/-- Model of the inner `get_month_map` (lines 100-107), with the list of
keys handed to the external fetch threaded as instrumentation. -/
def get_month_map (source : CacheKey → SourceResp) (k : CacheKey)
    (cache : Cache) (log : List CacheKey) :
    Except String MonthMap × Cache × List CacheKey :=
  match alookup k cache with
  | some mm => (.ok mm, cache, log)
  | none =>
    match fetch_cheapest_per_day_map source k with
    | .error e => (.error e, cache, log ++ [k])
    | .ok raw =>
      let mapped := mapQuotes raw
      (.ok mapped, ainsert k mapped cache, log ++ [k])

/-! ### Month enumeration (`months_between`, lines 77-89) -/

abbrev Ym : Type := Nat × Nat

def mIdxYM (ym : Ym) : Nat := 12 * ym.1 + (ym.2 - 1)

def ymOfIdx (i : Nat) : Ym := (i / 12, i % 12 + 1)

/-- Lines 85-88: `m += 1; if m == 13: m = 1; y += 1`. -/
def nextMonth (ym : Ym) : Ym :=
  if ym.2 + 1 = 13 then (ym.1 + 1, 1) else (ym.1, ym.2 + 1)

/-- The `while True` loop of `months_between` with explicit fuel; `none`
models non-termination. -/
def monthsBetweenFuel : Nat → Ym → Ym → Option (List Ym)
  | 0, _, _ => none
  | fuel + 1, ym, eym =>
    if ym = eym then some [ym]
    else
      match monthsBetweenFuel fuel (nextMonth ym) eym with
      | none => none
      | some rest => some (ym :: rest)

/-- Model of `months_between` (lines 77-89).  The fuel is exactly the
number of loop iterations needed when `start ≤ end`; when the start month
is after the end month the Python loop never terminates, which is
modelled by `none`. -/
def months_between (start «end» : PyDate) : Option (List Ym) :=
  monthsBetweenFuel (mIdxYM («end».year, «end».month) + 1 - mIdxYM (start.year, start.month))
    (start.year, start.month) («end».year, «end».month)

/-! ### Route matcher (lines 92-145) -/

def labelOf (o d : String) : String := o ++ " ↔ " ++ d

/-- Python string `<=` (lexicographic on code points). -/
def charListLe : List Char → List Char → Bool
  | [], _ => true
  | _ :: _, [] => false
  | c :: cs, d :: ds =>
    if c.toNat < d.toNat then true
    else if d.toNat < c.toNat then false
    else charListLe cs ds

def strLe (a b : String) : Bool := charListLe a.data b.data

/-- Sort key comparison of line 144: ascending by `(total, out_day)`. -/
def candLe (a b : Candidate) : Bool :=
  decide (a.total < b.total) || (decide (a.total = b.total) && strLe a.out_day b.out_day)

/-- Stable insertion of one element into a sorted list. -/
def oinsert {α : Type} (le : α → α → Bool) (a : α) : List α → List α
  | [] => [a]
  | b :: l => if le a b then a :: b :: l else b :: oinsert le a l

/-- Stable insertion sort; agrees with CPython's stable `list.sort`. -/
def isort {α : Type} (le : α → α → Bool) (l : List α) : List α :=
  l.foldr (oinsert le) []

def sortCands (l : List Candidate) : List Candidate := isort candLe l

/-- `range(min_days, max_days + 1)` of line 128. -/
def spanList (minD maxD : Nat) : List Nat := List.range' minD (maxD + 1 - minD)

/-- Body of the `for span in range(...)` loop (lines 129-143) for one
outbound entry and one span. -/
def candidateForSpan (s e : PyDate) (retMaps : List (Ym × MonthMap)) (label : String)
    (out_day : String) (info : DayQuote) (out_dt : PyDate) (span : Nat) : Option Candidate :=
  let ret_dt := addDays out_dt span
  if dateLe s ret_dt ∧ dateLe ret_dt e then
    let ret_map := (alookup (ret_dt.year, ret_dt.month) retMaps).getD []
    let ret_day := formatISO ret_dt
    match alookup ret_day ret_map with
    | none => none
    | some rq =>
      some ⟨info.price + rq.price, out_day, ret_day, info.price, rq.price,
        info.depISO, info.arrISO, rq.depISO, rq.arrISO, label⟩
  else none

/-- Body of the `for out_day, info in fmap.items()` loop (lines 121-143):
a malformed day key (`ValueError` from `strptime`) or an out-of-range
date contributes nothing. -/
def candidatesForEntry (s e : PyDate) (minD maxD : Nat)
    (retMaps : List (Ym × MonthMap)) (label : String) (entry : String × DayQuote) :
    List Candidate :=
  match parseISO entry.1 with
  | none => []
  | some out_dt =>
    if dateLe s out_dt ∧ dateLe out_dt e then
      (spanList minD maxD).filterMap
        (candidateForSpan s e retMaps label entry.1 entry.2 out_dt)
    else []

/-- The candidate enumeration of lines 119-143 over already-loaded month
maps. -/
def enumerateCandidates (s e : PyDate) (minD maxD : Nat) (label : String)
    (outMaps retMaps : List (Ym × MonthMap)) : List Candidate :=
  outMaps.flatMap (fun ymm => ymm.2.flatMap (candidatesForEntry s e minD maxD retMaps label))

/-- Lines 114-117: load the month map of every month of the span for one
direction, threading the cache. -/
def loadMaps (source : CacheKey → SourceResp) (o d c : String) :
    List Ym → Cache → List CacheKey →
    Except String (List (Ym × MonthMap)) × Cache × List CacheKey
  | [], cache, log => (.ok [], cache, log)
  | ym :: rest, cache, log =>
    match get_month_map source (o, d, ym.1, ym.2, c) cache log with
    | (.error e, cache', log') => (.error e, cache', log')
    | (.ok mm, cache', log') =>
      match loadMaps source o d c rest cache' log' with
      | (.error e, cache'', log'') => (.error e, cache'', log'')
      | (.ok tail, cache'', log'') => (.ok ((ym, mm) :: tail), cache'', log'')

/-- Model of `find_roundtrips_for_route_by_dates` (lines 92-145). -/
def find_roundtrips_for_route_by_dates (source : CacheKey → SourceResp)
    (origin dest : String) (start_date end_date : PyDate) (min_days max_days : Nat)
    (currency : String) (cache : Cache) (log : List CacheKey) :
    Except String (List Candidate) × Cache × List CacheKey :=
  match months_between start_date end_date with
  | none => (.error nonTermMsg, cache, log)
  | some ymList =>
    match loadMaps source origin dest currency ymList cache log with
    | (.error e, cache', log') => (.error e, cache', log')
    | (.ok outMaps, cache', log') =>
      match loadMaps source dest origin currency ymList cache' log' with
      | (.error e, cache'', log'') => (.error e, cache'', log'')
      | (.ok retMaps, cache'', log'') =>
        (.ok (sortCands (enumerateCandidates start_date end_date min_days max_days
            (labelOf origin dest) outMaps retMaps)), cache'', log'')

/-! ### Chart series and worker (`Worker.run`, lines 200-243) -/

/-- Lines 223-225: `best_per_day[day] = min(best_per_day.get(day, inf), total)`.
The `float('inf')` sentinel is modelled by the `none` branch, since
`min(inf, t) = t`. -/
def bestPerDay (cands : List Candidate) : List (String × ℚ) :=
  cands.foldl
    (fun acc c =>
      ainsert c.out_day
        (match alookup c.out_day acc with
         | some w => min w c.total
         | none => c.total) acc) []

/-- Lines 226-232: convert the per-day map into chart points, silently
dropping day strings that fail to parse. -/
def chartPoints (best : List (String × ℚ)) : List (PyDate × ℚ) :=
  best.filterMap (fun e => (parseISO e.1).map (fun dt => (dt, e.2)))

structure SearchParams where
  currency : String
  min_days : Nat
  max_days : Nat
  routes : List (String × String)
  top_n : Nat
  start_date : PyDate
  end_date : PyDate

structure LoopResult where
  per_route : List (String × List Candidate)
  all_cands : List Candidate
  chart_series : List (String × List (PyDate × ℚ))
  cache : Cache
  log : List CacheKey
  fault : Option String
deriving Repr

/-- The four arguments of `self.finished.emit(per_route, combined,
chart_series, error)` at line 243 — the payload of one emission. -/
structure WorkerOutput where
  per_route : List (String × List Candidate)
  combined : List Candidate
  chart_series : List (String × List (PyDate × ℚ))
  error : String
deriving Repr, DecidableEq

/-- The `for (o, d) in routes` loop of `Worker.run` (lines 217-233); an
exception aborts the loop, keeping the dictionaries filled so far. -/
def workerLoop (source : CacheKey → SourceResp) (p : SearchParams) :
    List (String × String) → List (String × List Candidate) → List Candidate →
    List (String × List (PyDate × ℚ)) → Cache → List CacheKey → LoopResult
  | [], pr, all, ch, cache, log => ⟨pr, all, ch, cache, log, none⟩
  | (o, d) :: rest, pr, all, ch, cache, log =>
    match find_roundtrips_for_route_by_dates source o d p.start_date p.end_date
        p.min_days p.max_days p.currency cache log with
    | (.error e, cache', log') => ⟨pr, all, ch, cache', log', some e⟩
    | (.ok cands, cache', log') =>
      workerLoop source p rest
        (ainsert (labelOf o d) (cands.take p.top_n) pr)
        (all ++ cands)
        (ainsert (labelOf o d) (chartPoints (bestPerDay cands)) ch)
        cache' log'

/-- The message of the `UnboundLocalError` raised at line 243 when
`combined` was never bound (the exact Python wording is irrelevant: the
claims only use that this outcome is an unhandled exception, not an
emission). -/
def unboundLocalMsg : String :=
  "UnboundLocalError: cannot access local variable combined where it is not associated with a value"

/-- Model of `Worker.run` (lines 200-243): the cache starts empty and the
routes are processed in order.  `combined` is FIRST bound at line 235,
inside the `try` block and after the route loop, so on any fault during
the loop the `except` block (lines 240-241) sets `error` but the
`finished.emit` call at line 243 then raises `UnboundLocalError` reading
`combined`: the signal is never emitted.  The first component is the
observable outcome of one call — `.ok` with the emitted payload on a
fault-free run, `.error` with the unhandled exception (and no emission)
on a fault; the second component is the fetch-log instrumentation, which
records the fetches actually performed either way. -/
def workerRun (source : CacheKey → SourceResp) (p : SearchParams) :
    Except String WorkerOutput × List CacheKey :=
  let r := workerLoop source p p.routes [] [] [] [] []
  match r.fault with
  | some _ => (.error unboundLocalMsg, r.log)
  | none =>
    let combined :=
      if 2 ≤ p.routes.length ∧ r.all_cands ≠ [] then (sortCands r.all_cands).take p.top_n
      else []
    (.ok ⟨r.per_route, combined, r.chart_series, ""⟩, r.log)

/-! ### Derived (cache-free) descriptions used by the claim statements -/

/-- The month map the external source determines for a key: the fetched
record map after `DayQuote` conversion (meaningful whenever the fetch
does not raise). -/
def monthMapOf (source : CacheKey → SourceResp) (k : CacheKey) : MonthMap :=
  match fetch_cheapest_per_day_map source k with
  | .ok raw => mapQuotes raw
  | .error _ => []

def buildMaps (f : Ym → MonthMap) (yms : List Ym) : List (Ym × MonthMap) :=
  yms.map (fun ym => (ym, f ym))

/-- The candidate list of one route computed directly from the source,
with no cache involved. -/
def pureRouteCands (source : CacheKey → SourceResp) (o d : String)
    (s e : PyDate) (minD maxD : Nat) (curr : String) : List Candidate :=
  match months_between s e with
  | none => []
  | some ymList =>
    sortCands (enumerateCandidates s e minD maxD (labelOf o d)
      (buildMaps (fun ym => monthMapOf source (o, d, ym.1, ym.2, curr)) ymList)
      (buildMaps (fun ym => monthMapOf source (d, o, ym.1, ym.2, curr)) ymList))

/-- Every key stored in the cache holds exactly the month map the source
determines for that key (and that fetch does not raise). -/
def cacheConsistent (source : CacheKey → SourceResp) (cache : Cache) : Prop :=
  ∀ k mm, alookup k cache = some mm →
    ∃ raw, fetch_cheapest_per_day_map source k = .ok raw ∧ mm = mapQuotes raw

/-- Modelled from the spec: the Chart Series Builder keeps, for each
distinct outbound day, the minimum total over all candidates sharing that
outbound day (section 4.5 of the spec). -/
def specMinPerDay (cands : List Candidate) (d : String) : Option ℚ :=
  minList ((cands.filter (fun c => c.out_day = d)).map Candidate.total)
where
  minList : List ℚ → Option ℚ
    | [] => none
    | t :: ts =>
      some (match minList ts with
            | none => t
            | some w => min t w)

/-! ### Lemmas: association lists -/

theorem alookup_ainsert {α β : Type} [DecidableEq α] (k x : α) (v : β) (l : List (α × β)) :
    alookup x (ainsert k v l) = if k = x then some v else alookup x l := by
  induction l with
  | nil => simp [ainsert, alookup]
  | cons hd tl ih =>
    obtain ⟨k', v'⟩ := hd
    by_cases hk : k' = k
    · subst hk
      by_cases hx : k' = x
      · subst hx
        simp [ainsert, alookup]
      · simp [ainsert, alookup, hx]
    · by_cases hx : k' = x
      · subst hx
        have h2 : ¬ k = k' := fun h => hk h.symm
        simp [ainsert, alookup, hk, h2]
      · simp [ainsert, alookup, hk, hx, ih]

theorem mem_ainsert {α β : Type} [DecidableEq α] (k : α) (v : β) (l : List (α × β))
    (x : α × β) : x ∈ ainsert k v l → x = (k, v) ∨ x ∈ l := by
  induction l with
  | nil => simp [ainsert]
  | cons hd tl ih =>
    obtain ⟨k', v'⟩ := hd
    by_cases hk : k' = k
    · simp only [ainsert, if_pos hk, List.mem_cons]
      rintro (h | h) <;> simp [h]
    · simp only [ainsert, if_neg hk, List.mem_cons]
      rintro (h | h)
      · simp [h]
      · rcases ih h with h' | h' <;> simp [h']

theorem alookup_isSome_iff {α β : Type} [DecidableEq α] (k : α) (l : List (α × β)) :
    (alookup k l).isSome ↔ ∃ v, (k, v) ∈ l := by
  induction l with
  | nil => simp [alookup]
  | cons hd tl ih =>
    obtain ⟨k', v'⟩ := hd
    by_cases hk : k' = k
    · subst hk
      simp [alookup]
    · simp only [alookup, if_neg hk, List.mem_cons, ih]
      constructor
      · rintro ⟨v, hv⟩
        exact ⟨v, Or.inr hv⟩
      · rintro ⟨v, hv | hv⟩
        · cases hv
          simp at hk
        · exact ⟨v, hv⟩

/-! ### Lemmas: stable insertion sort -/

theorem mem_oinsert {α : Type} (le : α → α → Bool) (a x : α) (l : List α) :
    x ∈ oinsert le a l ↔ x = a ∨ x ∈ l := by
  induction l with
  | nil => simp [oinsert]
  | cons b tl ih =>
    simp only [oinsert]
    split
    · simp [List.mem_cons]
    · simp only [List.mem_cons, ih]
      tauto

theorem mem_isort {α : Type} (le : α → α → Bool) (l : List α) (x : α) :
    x ∈ isort le l ↔ x ∈ l := by
  induction l with
  | nil => simp [isort]
  | cons b tl ih =>
    simp only [isort, List.foldr_cons] at *
    rw [mem_oinsert, ih, List.mem_cons]

theorem pairwise_oinsert {α : Type} (le : α → α → Bool)
    (htrans : ∀ a b c, le a b = true → le b c = true → le a c = true)
    (htot : ∀ a b, le a b = false → le b a = true) (a : α) (l : List α)
    (h : l.Pairwise (fun x y => le x y = true)) :
    (oinsert le a l).Pairwise (fun x y => le x y = true) := by
  induction l with
  | nil => simp [oinsert]
  | cons b tl ih =>
    simp only [oinsert]
    rcases List.pairwise_cons.1 h with ⟨hb, htl⟩
    split
    · rename_i hab
      refine List.pairwise_cons.2 ⟨?_, h⟩
      intro x hx
      rcases List.mem_cons.1 hx with rfl | hx
      · exact hab
      · exact htrans a b x hab (hb x hx)
    · rename_i hab
      refine List.pairwise_cons.2 ⟨?_, ih htl⟩
      intro x hx
      rcases (mem_oinsert le a x tl).1 hx with rfl | hx
      · exact htot _ _ (Bool.eq_false_iff.2 hab)
      · exact hb x hx

/-! ### Lemmas: the `(total, out_day)` comparison -/

theorem charListLe_trans (a : List Char) :
    ∀ b c, charListLe a b = true → charListLe b c = true → charListLe a c = true := by
  induction a with
  | nil => intro b c _ _; rfl
  | cons x xs ih =>
    intro b c h1 h2
    cases b with
    | nil => simp [charListLe] at h1
    | cons y ys =>
      cases c with
      | nil => simp [charListLe] at h2
      | cons z zs =>
        simp only [charListLe] at h1 h2 ⊢
        split_ifs at h1 h2 ⊢ <;> first
          | rfl
          | omega
          | (exact ih ys zs h1 h2)

theorem charListLe_total (a : List Char) :
    ∀ b, charListLe a b = false → charListLe b a = true := by
  induction a with
  | nil => intro b h; simp [charListLe] at h
  | cons x xs ih =>
    intro b h
    cases b with
    | nil => rfl
    | cons y ys =>
      simp only [charListLe] at h ⊢
      split_ifs at h ⊢ <;> first
        | rfl
        | omega
        | (exact ih ys h)

theorem candLe_trans (a b c : Candidate) :
    candLe a b = true → candLe b c = true → candLe a c = true := by
  simp only [candLe, Bool.or_eq_true, Bool.and_eq_true, decide_eq_true_eq]
  rintro (h1 | ⟨h1, h1'⟩) (h2 | ⟨h2, h2'⟩)
  · exact Or.inl (lt_trans h1 h2)
  · exact Or.inl (h2 ▸ h1)
  · exact Or.inl (h1 ▸ h2)
  · exact Or.inr ⟨h1.trans h2, charListLe_trans _ _ _ h1' h2'⟩

theorem candLe_total (a b : Candidate) : candLe a b = false → candLe b a = true := by
  simp only [candLe, Bool.or_eq_false_iff, Bool.and_eq_false_iff,
    decide_eq_false_iff_not, Bool.or_eq_true, Bool.and_eq_true, decide_eq_true_eq]
  rintro ⟨h1, h2 | h2⟩
  · rcases lt_trichotomy a.total b.total with h | h | h
    · exact absurd h h1
    · exact absurd h h2
    · exact Or.inl h
  · rcases lt_trichotomy a.total b.total with h | h | h
    · exact absurd h h1
    · exact Or.inr ⟨h.symm, charListLe_total _ _ h2⟩
    · exact Or.inl h

theorem pairwise_isort {α : Type} (le : α → α → Bool)
    (htrans : ∀ a b c, le a b = true → le b c = true → le a c = true)
    (htot : ∀ a b, le a b = false → le b a = true) (l : List α) :
    (isort le l).Pairwise (fun x y => le x y = true) := by
  induction l with
  | nil => simp [isort]
  | cons b tl ih =>
    simpa [isort] using pairwise_oinsert le htrans htot b (isort le tl) ih

/-! ### Lemmas: spans and month indices -/

theorem mem_spanList (minD maxD k : Nat) : k ∈ spanList minD maxD ↔ minD ≤ k ∧ k ≤ maxD := by
  simp only [spanList, List.mem_range']
  constructor
  · rintro ⟨i, hi, rfl⟩
    omega
  · rintro ⟨h1, h2⟩
    exact ⟨k - minD, by omega, by omega⟩

theorem ymOfIdx_mIdxYM (ym : Ym) (h1 : 1 ≤ ym.2) (h2 : ym.2 ≤ 12) :
    ymOfIdx (mIdxYM ym) = ym := by
  obtain ⟨y, m⟩ := ym
  simp only [ymOfIdx, mIdxYM, Prod.mk.injEq]
  constructor <;> omega

theorem mIdxYM_ymOfIdx (i : Nat) : mIdxYM (ymOfIdx i) = i := by
  simp only [ymOfIdx, mIdxYM]
  omega

theorem ymOfIdx_month_bounds (i : Nat) : 1 ≤ (ymOfIdx i).2 ∧ (ymOfIdx i).2 ≤ 12 := by
  simp only [ymOfIdx]
  omega

theorem nextMonth_ymOfIdx (i : Nat) : nextMonth (ymOfIdx i) = ymOfIdx (i + 1) := by
  simp only [nextMonth, ymOfIdx]
  split_ifs with h <;> (simp only [Prod.mk.injEq]; constructor <;> omega)

theorem nextMonth_bounds (ym : Ym) (h1 : 1 ≤ ym.2) (h2 : ym.2 ≤ 12) :
    1 ≤ (nextMonth ym).2 ∧ (nextMonth ym).2 ≤ 12 ∧ mIdxYM (nextMonth ym) = mIdxYM ym + 1 := by
  obtain ⟨y, m⟩ := ym
  simp only [nextMonth, mIdxYM]
  split_ifs with h <;> simp only [] <;> omega

/-! ### Lemmas: date arithmetic -/

theorem one_le_daysInMonth (y m : Nat) : 1 ≤ daysInMonth y m := by
  unfold daysInMonth
  split_ifs <;> omega

theorem validDate_nextDay (dt : PyDate) (h : validDate dt) : validDate (nextDay dt) := by
  obtain ⟨hy, hm1, hm2, hd1, hd2⟩ := h
  unfold nextDay
  split_ifs with h1 h2
  · exact ⟨hy, hm1, hm2, by show 1 ≤ dt.day + 1; omega,
      by show dt.day + 1 ≤ daysInMonth dt.year dt.month; omega⟩
  · exact ⟨hy, by show 1 ≤ dt.month + 1; omega, by show dt.month + 1 ≤ 12; omega,
      le_refl 1, by show 1 ≤ daysInMonth dt.year (dt.month + 1); exact one_le_daysInMonth _ _⟩
  · exact ⟨by show 1 ≤ dt.year + 1; omega, le_refl 1, by show (1 : Nat) ≤ 12; omega,
      le_refl 1, by show 1 ≤ daysInMonth (dt.year + 1) 1; exact one_le_daysInMonth _ _⟩

theorem validDate_addDays (n : Nat) : ∀ dt : PyDate, validDate dt → validDate (addDays dt n) := by
  induction n with
  | zero => intro dt h; exact h
  | succ n ih =>
    intro dt h
    have : addDays dt (n + 1) = addDays (nextDay dt) n := rfl
    rw [this]
    exact ih (nextDay dt) (validDate_nextDay dt h)

theorem parseISO_valid (s : String) (dt : PyDate) (h : parseISO s = some dt) : validDate dt := by
  unfold parseISO at h
  split at h
  · rename_i ys ms ds heq
    split at h
    · rename_i y m d hy hm hd
      split at h
      · rename_i hcond
        cases h
        exact ⟨hcond.2.2.2.1, hcond.2.2.2.2.1, hcond.2.2.2.2.2.1,
          hcond.2.2.2.2.2.2.1, hcond.2.2.2.2.2.2.2⟩
      · exact absurd h (by simp)
    · exact absurd h (by simp)
  · exact absurd h (by simp)

theorem dateLe_mIdx (a b : PyDate) (h : dateLe a b) (ha : a.month ≤ 12) (hb : 1 ≤ b.month) :
    mIdxYM (a.year, a.month) ≤ mIdxYM (b.year, b.month) := by
  rcases h with h | ⟨h, h' | ⟨h', _⟩⟩ <;> simp only [mIdxYM] <;> omega

/-! ### Lemmas: month enumeration -/

theorem monthsBetweenFuel_eq (n : Nat) :
    ∀ ym eym : Ym, 1 ≤ ym.2 → ym.2 ≤ 12 → 1 ≤ eym.2 → eym.2 ≤ 12 →
    mIdxYM eym = mIdxYM ym + n →
    monthsBetweenFuel (n + 1) ym eym =
      some ((List.range (n + 1)).map (fun i => ymOfIdx (mIdxYM ym + i))) := by
  induction n with
  | zero =>
    intro ym eym h1 h2 h3 h4 hidx
    have heq : eym = ym := by
      rw [← ymOfIdx_mIdxYM eym h3 h4, ← ymOfIdx_mIdxYM ym h1 h2, hidx]
      simp
    subst heq
    simp [monthsBetweenFuel, List.range_succ, ymOfIdx_mIdxYM _ h1 h2]
  | succ n ih =>
    intro ym eym h1 h2 h3 h4 hidx
    have hne : ym ≠ eym := by
      intro h
      subst h
      omega
    obtain ⟨hn1, hn2, hn3⟩ := nextMonth_bounds ym h1 h2
    have hrec := ih (nextMonth ym) eym hn1 hn2 h3 h4 (by omega)
    have hstep : monthsBetweenFuel (n + 1 + 1) ym eym =
        match monthsBetweenFuel (n + 1) (nextMonth ym) eym with
        | none => none
        | some rest => some (ym :: rest) := by
      simp [monthsBetweenFuel, hne]
    rw [hstep, hrec]
    have hfun : (fun i => ymOfIdx (mIdxYM (nextMonth ym) + i)) =
        fun i => ymOfIdx (mIdxYM ym + (i + 1)) := by
      funext i
      rw [hn3]
      congr 1
      omega
    rw [hfun]
    conv_rhs => rw [List.range_succ_eq_map]
    simp only [List.map_cons, List.map_map, Nat.add_zero, ymOfIdx_mIdxYM ym h1 h2]
    rfl

/-- Explicit description of `months_between` on valid, ordered inputs. -/
theorem months_between_eq (s e : PyDate) (hs1 : 1 ≤ s.month) (hs2 : s.month ≤ 12)
    (he1 : 1 ≤ e.month) (he2 : e.month ≤ 12)
    (hle : mIdxYM (s.year, s.month) ≤ mIdxYM (e.year, e.month)) :
    months_between s e =
      some ((List.range (mIdxYM (e.year, e.month) - mIdxYM (s.year, s.month) + 1)).map
        (fun i => ymOfIdx (mIdxYM (s.year, s.month) + i))) := by
  unfold months_between
  have hn : mIdxYM (e.year, e.month) + 1 - mIdxYM (s.year, s.month) =
      (mIdxYM (e.year, e.month) - mIdxYM (s.year, s.month)) + 1 := by omega
  rw [hn]
  exact monthsBetweenFuel_eq _ (s.year, s.month) (e.year, e.month) hs1 hs2 he1 he2 (by omega)

theorem mem_months_between (s e : PyDate) (hs1 : 1 ≤ s.month) (hs2 : s.month ≤ 12)
    (he1 : 1 ≤ e.month) (he2 : e.month ≤ 12)
    (hle : mIdxYM (s.year, s.month) ≤ mIdxYM (e.year, e.month))
    (l : List Ym) (hmb : months_between s e = some l) (ym : Ym) :
    ym ∈ l ↔ 1 ≤ ym.2 ∧ ym.2 ≤ 12 ∧
      mIdxYM (s.year, s.month) ≤ mIdxYM ym ∧ mIdxYM ym ≤ mIdxYM (e.year, e.month) := by
  rw [months_between_eq s e hs1 hs2 he1 he2 hle] at hmb
  cases hmb
  simp only [List.mem_map, List.mem_range]
  constructor
  · rintro ⟨i, hi, rfl⟩
    rcases ymOfIdx_month_bounds (mIdxYM (s.year, s.month) + i) with ⟨b1, b2⟩
    refine ⟨b1, b2, ?_, ?_⟩ <;> rw [mIdxYM_ymOfIdx] <;> omega
  · rintro ⟨b1, b2, hlo, hhi⟩
    refine ⟨mIdxYM ym - mIdxYM (s.year, s.month), by omega, ?_⟩
    have : mIdxYM (s.year, s.month) + (mIdxYM ym - mIdxYM (s.year, s.month)) = mIdxYM ym := by
      omega
    rw [this, ymOfIdx_mIdxYM ym b1 b2]

/-! ### Lemmas: loaded month maps and the candidate enumeration -/

theorem alookup_buildMaps_of_mem (f : Ym → MonthMap) (yml : List Ym) (ym : Ym)
    (h : ym ∈ yml) : alookup ym (buildMaps f yml) = some (f ym) := by
  induction yml with
  | nil => cases h
  | cons a tl ih =>
    simp only [buildMaps, List.map_cons, alookup]
    by_cases ha : a = ym
    · subst ha
      simp
    · rw [if_neg ha]
      rcases List.mem_cons.1 h with rfl | h'
      · exact absurd rfl ha
      · exact ih h'

theorem alookup_buildMaps_some (f : Ym → MonthMap) (yml : List Ym) (ym : Ym) (v : MonthMap)
    (h : alookup ym (buildMaps f yml) = some v) : ym ∈ yml ∧ v = f ym := by
  induction yml with
  | nil => simp [buildMaps, alookup] at h
  | cons a tl ih =>
    simp only [buildMaps, List.map_cons, alookup] at h
    by_cases ha : a = ym
    · subst ha
      rw [if_pos rfl] at h
      cases h
      exact ⟨List.mem_cons_self _ _, rfl⟩
    · rw [if_neg ha] at h
      rcases ih h with ⟨h1, h2⟩
      exact ⟨List.mem_cons_of_mem _ h1, h2⟩

theorem mem_enumerateCandidates (s e : PyDate) (minD maxD : Nat) (label : String)
    (outMaps retMaps : List (Ym × MonthMap)) (c : Candidate) :
    c ∈ enumerateCandidates s e minD maxD label outMaps retMaps ↔
      ∃ ymm ∈ outMaps, ∃ entry ∈ ymm.2,
        c ∈ candidatesForEntry s e minD maxD retMaps label entry := by
  simp [enumerateCandidates, List.mem_flatMap]

theorem candidateForSpan_eq_some (s e : PyDate) (retMaps : List (Ym × MonthMap))
    (label od : String) (info : DayQuote) (odt : PyDate) (k : Nat) (c : Candidate) :
    candidateForSpan s e retMaps label od info odt k = some c ↔
      dateLe s (addDays odt k) ∧ dateLe (addDays odt k) e ∧
      ∃ rq, alookup (formatISO (addDays odt k))
          ((alookup ((addDays odt k).year, (addDays odt k).month) retMaps).getD []) = some rq ∧
        c = ⟨info.price + rq.price, od, formatISO (addDays odt k), info.price, rq.price,
          info.depISO, info.arrISO, rq.depISO, rq.arrISO, label⟩ := by
  by_cases hr : dateLe s (addDays odt k) ∧ dateLe (addDays odt k) e
  · cases hl : alookup (formatISO (addDays odt k))
        ((alookup ((addDays odt k).year, (addDays odt k).month) retMaps).getD []) with
    | none =>
      simp only [candidateForSpan, hr, if_true, hl, true_and]
      constructor
      · intro h
        cases h
      · rintro ⟨rq, hrq, _⟩
        cases hrq
    | some rq =>
      simp only [candidateForSpan, hr, if_true, hl, true_and, Option.some.injEq]
      constructor
      · intro h
        exact ⟨rq, rfl, h.symm⟩
      · rintro ⟨rq', hrq, rfl⟩
        cases hrq
        rfl
  · simp only [candidateForSpan, hr, if_false]
    constructor
    · intro h
      cases h
    · rintro ⟨h1, h2, _⟩
      exact absurd ⟨h1, h2⟩ hr

theorem mem_candidatesForEntry (s e : PyDate) (minD maxD : Nat)
    (retMaps : List (Ym × MonthMap)) (label : String) (entry : String × DayQuote)
    (c : Candidate) :
    c ∈ candidatesForEntry s e minD maxD retMaps label entry ↔
      ∃ odt, parseISO entry.1 = some odt ∧ dateLe s odt ∧ dateLe odt e ∧
        ∃ k, minD ≤ k ∧ k ≤ maxD ∧
          candidateForSpan s e retMaps label entry.1 entry.2 odt k = some c := by
  cases hp : parseISO entry.1 with
  | none => simp [candidatesForEntry, hp]
  | some odt =>
    by_cases hr : dateLe s odt ∧ dateLe odt e
    · simp only [candidatesForEntry, hp, if_pos hr, List.mem_filterMap]
      constructor
      · rintro ⟨k, hk, hck⟩
        rcases (mem_spanList minD maxD k).1 hk with ⟨hk1, hk2⟩
        exact ⟨odt, rfl, hr.1, hr.2, k, hk1, hk2, hck⟩
      · rintro ⟨odt', heq, _, _, k, hk1, hk2, hck⟩
        cases heq
        exact ⟨k, (mem_spanList minD maxD k).2 ⟨hk1, hk2⟩, hck⟩
    · simp only [candidatesForEntry, hp, if_neg hr, List.not_mem_nil, false_iff]
      rintro ⟨odt', heq, h1, h2, _⟩
      cases heq
      exact hr ⟨h1, h2⟩

/-! ### Lemmas: the quote cache -/

theorem cacheConsistent_empty (source : CacheKey → SourceResp) : cacheConsistent source [] := by
  intro k mm h
  simp [alookup] at h

theorem get_month_map_hit (source : CacheKey → SourceResp) (k : CacheKey) (cache : Cache)
    (log : List CacheKey) (mm : MonthMap) (h : alookup k cache = some mm) :
    get_month_map source k cache log = (.ok mm, cache, log) := by
  unfold get_month_map
  rw [h]

theorem get_month_map_ok (source : CacheKey → SourceResp) (k : CacheKey) (cache : Cache)
    (log : List CacheKey) (hcons : cacheConsistent source cache) :
    ∀ mm cache' log', get_month_map source k cache log = (.ok mm, cache', log') →
      mm = monthMapOf source k ∧ cacheConsistent source cache' := by
  intro mm cache' log' h
  unfold get_month_map at h
  split at h
  · rename_i mm0 hc
    simp only [Prod.mk.injEq, Except.ok.injEq] at h
    obtain ⟨h1, h2, h3⟩ := h
    rcases hcons k mm0 hc with ⟨raw, hraw, hmm0⟩
    subst h1
    subst h2
    exact ⟨by rw [monthMapOf, hraw, hmm0], hcons⟩
  · rename_i hc
    split at h
    · cases h
    · rename_i raw hf
      simp only [Prod.mk.injEq, Except.ok.injEq] at h
      obtain ⟨h1, h2, h3⟩ := h
      subst h1
      constructor
      · rw [monthMapOf, hf]
      · rw [← h2]
        intro k' mm' hk'
        rw [alookup_ainsert] at hk'
        by_cases hkk : k = k'
        · rw [if_pos hkk] at hk'
          cases hk'
          exact ⟨raw, hkk ▸ hf, rfl⟩
        · rw [if_neg hkk] at hk'
          exact hcons k' mm' hk'

theorem loadMaps_ok (source : CacheKey → SourceResp) (o d c : String) :
    ∀ (yms : List Ym) (cache : Cache) (log : List CacheKey)
      (maps : List (Ym × MonthMap)) (cache' : Cache) (log' : List CacheKey),
      cacheConsistent source cache →
      loadMaps source o d c yms cache log = (.ok maps, cache', log') →
      maps = buildMaps (fun ym => monthMapOf source (o, d, ym.1, ym.2, c)) yms ∧
        cacheConsistent source cache' := by
  intro yms
  induction yms with
  | nil =>
    intro cache log maps cache' log' hcons h
    simp only [loadMaps, Prod.mk.injEq, Except.ok.injEq] at h
    obtain ⟨h1, h2, h3⟩ := h
    exact ⟨h1.symm, h2 ▸ hcons⟩
  | cons ym rest ih =>
    intro cache log maps cache' log' hcons h
    unfold loadMaps at h
    split at h
    · cases h
    · rename_i mm c1 l1 hgm
      rcases get_month_map_ok source _ cache log hcons mm c1 l1 hgm with ⟨hmm, hcons1⟩
      split at h
      · cases h
      · rename_i tail c2 l2 hlm
        simp only [Prod.mk.injEq, Except.ok.injEq] at h
        obtain ⟨h1, h2, h3⟩ := h
        rcases ih c1 l1 tail c2 l2 hcons1 hlm with ⟨htail, hcons2⟩
        refine ⟨?_, h2 ▸ hcons2⟩
        rw [← h1, htail, hmm]
        rfl

theorem find_ok (source : CacheKey → SourceResp) (o d : String) (s e : PyDate)
    (minD maxD : Nat) (curr : String) (cache : Cache) (log : List CacheKey)
    (cands : List Candidate) (cache' : Cache) (log' : List CacheKey)
    (hcons : cacheConsistent source cache)
    (h : find_roundtrips_for_route_by_dates source o d s e minD maxD curr cache log =
      (.ok cands, cache', log')) :
    cands = pureRouteCands source o d s e minD maxD curr ∧ cacheConsistent source cache' := by
  unfold find_roundtrips_for_route_by_dates at h
  split at h
  · cases h
  · rename_i yml hmb
    split at h
    · cases h
    · rename_i outMaps c1 l1 hl1
      rcases loadMaps_ok source o d curr yml cache log outMaps c1 l1 hcons hl1 with ⟨hout, hcons1⟩
      split at h
      · cases h
      · rename_i retMaps c2 l2 hl2
        rcases loadMaps_ok source d o curr yml c1 l1 retMaps c2 l2 hcons1 hl2 with ⟨hret, hcons2⟩
        simp only [Prod.mk.injEq, Except.ok.injEq] at h
        obtain ⟨h1, h2, h3⟩ := h
        constructor
        · rw [← h1, hout, hret]
          unfold pureRouteCands
          rw [hmb]
        · exact h2 ▸ hcons2

/-! ### Lemmas: the fetch log -/

def logInv (cache : Cache) (log : List CacheKey) : Prop :=
  log.Nodup ∧ ∀ k ∈ log, (alookup k cache).isSome

theorem logInv_empty : logInv [] [] := ⟨List.nodup_nil, by intro k h; cases h⟩

theorem get_month_map_log (source : CacheKey → SourceResp) (k : CacheKey) (cache : Cache)
    (log : List CacheKey) (res : Except String MonthMap) (cache' : Cache)
    (log' : List CacheKey) (hinv : logInv cache log)
    (h : get_month_map source k cache log = (res, cache', log')) :
    log'.Nodup ∧ ∀ mm, res = .ok mm → logInv cache' log' := by
  obtain ⟨hnd, hsub⟩ := hinv
  unfold get_month_map at h
  split at h
  · rename_i mm0 hc
    simp only [Prod.mk.injEq] at h
    obtain ⟨h1, h2, h3⟩ := h
    subst h2
    subst h3
    exact ⟨hnd, fun mm _ => ⟨hnd, hsub⟩⟩
  · rename_i hc
    have hknot : k ∉ log := by
      intro hk
      have hx := hsub k hk
      rw [hc] at hx
      cases hx
    have hnd' : (log ++ [k]).Nodup := by
      rw [List.nodup_append]
      exact ⟨hnd, List.nodup_singleton k, by simpa using hknot⟩
    split at h
    · rename_i e hf
      simp only [Prod.mk.injEq] at h
      obtain ⟨h1, h2, h3⟩ := h
      subst h1
      subst h3
      exact ⟨hnd', fun mm hmm => by cases hmm⟩
    · rename_i raw hf
      simp only [Prod.mk.injEq] at h
      obtain ⟨h1, h2, h3⟩ := h
      subst h1
      subst h2
      subst h3
      refine ⟨hnd', fun mm _ => ⟨hnd', ?_⟩⟩
      intro k' hk'
      rw [alookup_ainsert]
      by_cases hkk : k = k'
      · rw [if_pos hkk]
        rfl
      · rw [if_neg hkk]
        rcases List.mem_append.1 hk' with hmem | hmem
        · exact hsub k' hmem
        · cases List.mem_singleton.1 hmem
          exact absurd rfl hkk

theorem loadMaps_log (source : CacheKey → SourceResp) (o d c : String) :
    ∀ (yms : List Ym) (cache : Cache) (log : List CacheKey)
      (res : Except String (List (Ym × MonthMap))) (cache' : Cache) (log' : List CacheKey),
      logInv cache log →
      loadMaps source o d c yms cache log = (res, cache', log') →
      log'.Nodup ∧ ∀ maps, res = .ok maps → logInv cache' log' := by
  intro yms
  induction yms with
  | nil =>
    intro cache log res cache' log' hinv h
    simp only [loadMaps, Prod.mk.injEq] at h
    obtain ⟨h1, h2, h3⟩ := h
    subst h2
    subst h3
    exact ⟨hinv.1, fun maps _ => hinv⟩
  | cons ym rest ih =>
    intro cache log res cache' log' hinv h
    unfold loadMaps at h
    split at h
    · rename_i e c1 l1 hgm
      simp only [Prod.mk.injEq] at h
      obtain ⟨h1, h2, h3⟩ := h
      subst h1
      subst h2
      subst h3
      rcases get_month_map_log source _ cache log _ _ _ hinv hgm with ⟨hnd1, _⟩
      exact ⟨hnd1, fun maps hm => by cases hm⟩
    · rename_i mm c1 l1 hgm
      rcases get_month_map_log source _ cache log _ _ _ hinv hgm with ⟨hnd1, hok1⟩
      have hinv1 : logInv c1 l1 := hok1 mm rfl
      split at h
      · rename_i e2 c2 l2 hlm
        simp only [Prod.mk.injEq] at h
        obtain ⟨h1, h2, h3⟩ := h
        subst h1
        subst h2
        subst h3
        rcases ih c1 l1 _ _ _ hinv1 hlm with ⟨hnd2, _⟩
        exact ⟨hnd2, fun maps hm => by cases hm⟩
      · rename_i tail c2 l2 hlm
        simp only [Prod.mk.injEq] at h
        obtain ⟨h1, h2, h3⟩ := h
        subst h1
        subst h2
        subst h3
        rcases ih c1 l1 _ _ _ hinv1 hlm with ⟨hnd2, hok2⟩
        exact ⟨hnd2, fun maps _ => hok2 tail rfl⟩

theorem find_log (source : CacheKey → SourceResp) (o d : String) (s e : PyDate)
    (minD maxD : Nat) (curr : String) (cache : Cache) (log : List CacheKey)
    (res : Except String (List Candidate)) (cache' : Cache) (log' : List CacheKey)
    (hinv : logInv cache log)
    (h : find_roundtrips_for_route_by_dates source o d s e minD maxD curr cache log =
      (res, cache', log')) :
    log'.Nodup ∧ ∀ cands, res = .ok cands → logInv cache' log' := by
  unfold find_roundtrips_for_route_by_dates at h
  split at h
  · simp only [Prod.mk.injEq] at h
    obtain ⟨h1, h2, h3⟩ := h
    subst h1
    subst h2
    subst h3
    exact ⟨hinv.1, fun cands hm => by cases hm⟩
  · rename_i yml hmb
    split at h
    · rename_i e1 c1 l1 hl1
      simp only [Prod.mk.injEq] at h
      obtain ⟨h1, h2, h3⟩ := h
      subst h1
      subst h2
      subst h3
      rcases loadMaps_log source o d curr yml cache log _ _ _ hinv hl1 with ⟨hnd1, _⟩
      exact ⟨hnd1, fun cands hm => by cases hm⟩
    · rename_i outMaps c1 l1 hl1
      rcases loadMaps_log source o d curr yml cache log _ _ _ hinv hl1 with ⟨hnd1, hok1⟩
      have hinv1 : logInv c1 l1 := hok1 outMaps rfl
      split at h
      · rename_i e2 c2 l2 hl2
        simp only [Prod.mk.injEq] at h
        obtain ⟨h1, h2, h3⟩ := h
        subst h1
        subst h2
        subst h3
        rcases loadMaps_log source d o curr yml c1 l1 _ _ _ hinv1 hl2 with ⟨hnd2, _⟩
        exact ⟨hnd2, fun cands hm => by cases hm⟩
      · rename_i retMaps c2 l2 hl2
        rcases loadMaps_log source d o curr yml c1 l1 _ _ _ hinv1 hl2 with ⟨hnd2, hok2⟩
        have hinv2 : logInv c2 l2 := hok2 retMaps rfl
        simp only [Prod.mk.injEq] at h
        obtain ⟨h1, h2, h3⟩ := h
        subst h2
        subst h3
        exact ⟨hinv2.1, fun cands _ => hinv2⟩

theorem workerLoop_log (source : CacheKey → SourceResp) (p : SearchParams) :
    ∀ (routes : List (String × String)) pr all ch (cache : Cache) (log : List CacheKey),
      logInv cache log →
      (workerLoop source p routes pr all ch cache log).log.Nodup := by
  intro routes
  induction routes with
  | nil =>
    intro pr all ch cache log hinv
    exact hinv.1
  | cons rt rest ih =>
    intro pr all ch cache log hinv
    obtain ⟨o, d⟩ := rt
    unfold workerLoop
    rcases hf : find_roundtrips_for_route_by_dates source o d p.start_date p.end_date
        p.min_days p.max_days p.currency cache log with ⟨res, c1, l1⟩
    rcases find_log source o d p.start_date p.end_date p.min_days p.max_days p.currency
      cache log res c1 l1 hinv hf with ⟨hnd1, hok1⟩
    cases res with
    | error e => exact hnd1
    | ok cands => exact ih _ _ _ c1 l1 (hok1 cands rfl)

/-! ### Lemmas: error messages -/

theorem processFaresAux_error (fares : List RawFare) :
    ∀ (acc : List (String × RawQuote)) (e : String),
      processFaresAux acc fares = .error e → e = attrErrMsg := by
  induction fares with
  | nil =>
    intro acc e h
    cases h
  | cons f rest ih =>
    intro acc e h
    unfold processFaresAux at h
    split at h
    · exact ih _ _ h
    · split at h
      · exact ih _ _ h
      · cases h
        rfl
      · split at h
        · exact ih _ _ h
        · split at h
          · exact ih _ _ h
          · exact ih _ _ h

theorem fetch_error (source : CacheKey → SourceResp) (k : CacheKey) (e : String)
    (h : fetch_cheapest_per_day_map source k = .error e) : e = attrErrMsg := by
  unfold fetch_cheapest_per_day_map at h
  cases hs : source k with
  | fail =>
    rw [hs] at h
    cases h
  | ok fares =>
    rw [hs] at h
    exact processFaresAux_error fares [] e h

theorem get_month_map_error (source : CacheKey → SourceResp) (k : CacheKey) (cache : Cache)
    (log : List CacheKey) (e : String) (cache' : Cache) (log' : List CacheKey)
    (h : get_month_map source k cache log = (.error e, cache', log')) : e = attrErrMsg := by
  unfold get_month_map at h
  split at h
  · simp at h
  · split at h
    · rename_i e2 hf
      simp only [Prod.mk.injEq, Except.error.injEq] at h
      exact h.1 ▸ fetch_error source k e2 hf
    · simp at h

theorem loadMaps_error (source : CacheKey → SourceResp) (o d c : String) :
    ∀ (yms : List Ym) (cache : Cache) (log : List CacheKey) (e : String)
      (cache' : Cache) (log' : List CacheKey),
      loadMaps source o d c yms cache log = (.error e, cache', log') → e = attrErrMsg := by
  intro yms
  induction yms with
  | nil =>
    intro cache log e cache' log' h
    simp [loadMaps] at h
  | cons ym rest ih =>
    intro cache log e cache' log' h
    unfold loadMaps at h
    split at h
    · rename_i e1 c1 l1 hgm
      simp only [Prod.mk.injEq, Except.error.injEq] at h
      exact h.1 ▸ get_month_map_error source _ cache log e1 c1 l1 hgm
    · rename_i mm c1 l1 hgm
      split at h
      · rename_i e2 c2 l2 hlm
        simp only [Prod.mk.injEq, Except.error.injEq] at h
        exact h.1 ▸ ih c1 l1 e2 c2 l2 hlm
      · simp at h

theorem find_error (source : CacheKey → SourceResp) (o d : String) (s e : PyDate)
    (minD maxD : Nat) (curr : String) (cache : Cache) (log : List CacheKey)
    (err : String) (cache' : Cache) (log' : List CacheKey)
    (h : find_roundtrips_for_route_by_dates source o d s e minD maxD curr cache log =
      (.error err, cache', log')) : err = attrErrMsg ∨ err = nonTermMsg := by
  unfold find_roundtrips_for_route_by_dates at h
  split at h
  · simp only [Prod.mk.injEq, Except.error.injEq] at h
    exact Or.inr h.1.symm
  · rename_i yml hmb
    split at h
    · rename_i e1 c1 l1 hl1
      simp only [Prod.mk.injEq, Except.error.injEq] at h
      exact Or.inl (h.1 ▸ loadMaps_error source o d curr yml cache log e1 c1 l1 hl1)
    · rename_i outMaps c1 l1 hl1
      split at h
      · rename_i e2 c2 l2 hl2
        simp only [Prod.mk.injEq, Except.error.injEq] at h
        exact Or.inl (h.1 ▸ loadMaps_error source d o curr yml c1 l1 e2 c2 l2 hl2)
      · simp at h

theorem workerLoop_fault (source : CacheKey → SourceResp) (p : SearchParams) :
    ∀ (routes : List (String × String)) pr all ch (cache : Cache) (log : List CacheKey)
      (e : String),
      (workerLoop source p routes pr all ch cache log).fault = some e →
      e = attrErrMsg ∨ e = nonTermMsg := by
  intro routes
  induction routes with
  | nil =>
    intro pr all ch cache log e h
    have h2 : (none : Option String) = some e := h
    cases h2
  | cons rt rest ih =>
    intro pr all ch cache log e h
    obtain ⟨o, d⟩ := rt
    unfold workerLoop at h
    rcases hf : find_roundtrips_for_route_by_dates source o d p.start_date p.end_date
        p.min_days p.max_days p.currency cache log with ⟨res, c1, l1⟩
    rw [hf] at h
    cases res with
    | error e1 =>
      have h2 : some e1 = some e := h
      cases h2
      exact find_error source o d p.start_date p.end_date p.min_days p.max_days
        p.currency cache log e c1 l1 hf
    | ok cands => exact ih _ _ _ c1 l1 e h

theorem attrErrMsg_ne : attrErrMsg ≠ "" := by decide

theorem nonTermMsg_ne : nonTermMsg ≠ "" := by decide

/-! ### Lemmas: the worker loop on a fault-free run -/

def routeCandsOf (source : CacheKey → SourceResp) (p : SearchParams)
    (rt : String × String) : List Candidate :=
  pureRouteCands source rt.1 rt.2 p.start_date p.end_date p.min_days p.max_days p.currency

theorem workerLoop_ok (source : CacheKey → SourceResp) (p : SearchParams) :
    ∀ (routes : List (String × String)) pr all ch (cache : Cache) (log : List CacheKey),
      cacheConsistent source cache →
      (workerLoop source p routes pr all ch cache log).fault = none →
      (workerLoop source p routes pr all ch cache log).per_route =
        routes.foldl (fun acc rt => ainsert (labelOf rt.1 rt.2)
          ((routeCandsOf source p rt).take p.top_n) acc) pr ∧
      (workerLoop source p routes pr all ch cache log).all_cands =
        all ++ (routes.map (routeCandsOf source p)).flatten ∧
      (workerLoop source p routes pr all ch cache log).chart_series =
        routes.foldl (fun acc rt => ainsert (labelOf rt.1 rt.2)
          (chartPoints (bestPerDay (routeCandsOf source p rt))) acc) ch := by
  intro routes
  induction routes with
  | nil =>
    intro pr all ch cache log hcons hfault
    refine ⟨rfl, ?_, rfl⟩
    show all = all ++ (List.map (routeCandsOf source p) []).flatten
    simp
  | cons rt rest ih =>
    intro pr all ch cache log hcons hfault
    obtain ⟨o, d⟩ := rt
    unfold workerLoop at hfault ⊢
    rcases hf : find_roundtrips_for_route_by_dates source o d p.start_date p.end_date
        p.min_days p.max_days p.currency cache log with ⟨res, c1, l1⟩
    rw [hf] at hfault
    cases res with
    | error e =>
      have h2 : some e = (none : Option String) := hfault
      cases h2
    | ok cands =>
      rcases find_ok source o d p.start_date p.end_date p.min_days p.max_days p.currency
        cache log cands c1 l1 hcons hf with ⟨hcands, hcons1⟩
      subst hcands
      rcases ih (ainsert (labelOf o d)
            ((pureRouteCands source o d p.start_date p.end_date p.min_days p.max_days
              p.currency).take p.top_n) pr)
          (all ++ pureRouteCands source o d p.start_date p.end_date p.min_days p.max_days
            p.currency)
          (ainsert (labelOf o d)
            (chartPoints (bestPerDay (pureRouteCands source o d p.start_date p.end_date
              p.min_days p.max_days p.currency))) ch)
          c1 l1 hcons1 hfault with ⟨h1, h2, h3⟩
      refine ⟨h1, ?_, h3⟩
      rw [h2]
      simp [routeCandsOf, List.append_assoc]

theorem workerRun_ok (source : CacheKey → SourceResp) (p : SearchParams)
    (out : WorkerOutput) (h : (workerRun source p).1 = .ok out) :
    out.error = "" ∧
    out.per_route =
      p.routes.foldl (fun acc rt => ainsert (labelOf rt.1 rt.2)
        ((routeCandsOf source p rt).take p.top_n) acc) [] ∧
    out.combined =
      (if 2 ≤ p.routes.length then
        (sortCands ((p.routes.map (routeCandsOf source p)).flatten)).take p.top_n
      else []) ∧
    out.chart_series =
      p.routes.foldl (fun acc rt => ainsert (labelOf rt.1 rt.2)
        (chartPoints (bestPerDay (routeCandsOf source p rt))) acc) [] := by
  have hfault : (workerLoop source p p.routes [] [] [] [] []).fault = none := by
    cases hft : (workerLoop source p p.routes [] [] [] [] []).fault with
    | none => rfl
    | some e =>
      exfalso
      simp only [workerRun] at h
      rw [hft] at h
      have h2 : (Except.error unboundLocalMsg : Except String WorkerOutput) =
          Except.ok out := h
      exact Except.noConfusion h2
  simp only [workerRun] at h
  rw [hfault] at h
  have hout : Except.ok
      (⟨(workerLoop source p p.routes [] [] [] [] []).per_route,
        (if 2 ≤ p.routes.length ∧ (workerLoop source p p.routes [] [] [] [] []).all_cands ≠ []
         then (sortCands (workerLoop source p p.routes [] [] [] [] []).all_cands).take p.top_n
         else []),
        (workerLoop source p p.routes [] [] [] [] []).chart_series, ""⟩ : WorkerOutput) =
      Except.ok out := h
  injection hout with hout2
  subst hout2
  rcases workerLoop_ok source p p.routes [] [] [] [] [] (cacheConsistent_empty source) hfault
    with ⟨h1, h2, h3⟩
  refine ⟨rfl, h1, ?_, h3⟩
  show (if 2 ≤ p.routes.length ∧ (workerLoop source p p.routes [] [] [] [] []).all_cands ≠ []
        then (sortCands (workerLoop source p p.routes [] [] [] [] []).all_cands).take p.top_n
        else []) = _
  rw [h2]
  simp only [List.nil_append]
  by_cases hlen : 2 ≤ p.routes.length
  · by_cases hemp : (p.routes.map (routeCandsOf source p)).flatten = []
    · rw [if_pos hlen, hemp]
      rw [if_neg (by simp)]
      simp [sortCands, isort]
    · rw [if_pos ⟨hlen, hemp⟩, if_pos hlen]
  · rw [if_neg (by tauto), if_neg hlen]

/-! ### Lemmas: chart series -/

def omin : Option ℚ → Option ℚ → Option ℚ
  | none, b => b
  | some w, none => some w
  | some w, some m => some (min w m)

theorem specMinPerDay_cons (c : Candidate) (l : List Candidate) (d : String) :
    specMinPerDay (c :: l) d =
      if c.out_day = d then
        some (match specMinPerDay l d with
              | none => c.total
              | some w => min c.total w)
      else specMinPerDay l d := by
  by_cases hd : c.out_day = d
  · simp [specMinPerDay, List.filter_cons, hd]
    rfl
  · simp [specMinPerDay, List.filter_cons, hd]

theorem alookup_bestPerDay_aux (d : String) :
    ∀ (l : List Candidate) (acc : List (String × ℚ)),
      alookup d (l.foldl (fun acc c => ainsert c.out_day
        (match alookup c.out_day acc with
         | some w => min w c.total
         | none => c.total) acc) acc) =
      omin (alookup d acc) (specMinPerDay l d) := by
  intro l
  induction l with
  | nil =>
    intro acc
    show alookup d acc = omin (alookup d acc) (specMinPerDay [] d)
    cases h : alookup d acc <;> rfl
  | cons c l ih =>
    intro acc
    rw [List.foldl_cons, ih, alookup_ainsert, specMinPerDay_cons]
    by_cases hd : c.out_day = d
    · rw [if_pos hd, if_pos hd, hd]
      cases hacc : alookup d acc with
      | none =>
        cases hmin : specMinPerDay l d with
        | none => rfl
        | some m => rfl
      | some w =>
        cases hmin : specMinPerDay l d with
        | none => rfl
        | some m =>
          show some (min (min w c.total) m) = some (min w (min c.total m))
          rw [min_assoc]
    · rw [if_neg hd, if_neg hd]

/-- The per-day minimum map of lines 223-225, characterised: looking up a
day yields exactly the minimum total over the candidates with that
outbound day (`none` iff the day does not occur). -/
theorem alookup_bestPerDay (cands : List Candidate) (d : String) :
    alookup d (bestPerDay cands) = specMinPerDay cands d := by
  have h := alookup_bestPerDay_aux d cands []
  unfold bestPerDay
  rw [h]
  have hnone : alookup d ([] : List (String × ℚ)) = none := rfl
  rw [hnone]
  cases specMinPerDay cands d <;> rfl

/-! ### Lemmas: fare processing -/

theorem mem_mapQuotes (raw : List (String × RawQuote)) (day : String) (dq : DayQuote) :
    (day, dq) ∈ mapQuotes raw ↔
      ∃ rq, (day, rq) ∈ raw ∧ dq = ⟨day, rq.price, rq.dep, rq.arr⟩ := by
  unfold mapQuotes
  rw [List.mem_map]
  constructor
  · rintro ⟨⟨d0, rq⟩, hmem, heq⟩
    simp only [Prod.mk.injEq] at heq
    obtain ⟨h1, h2⟩ := heq
    subst h1
    exact ⟨rq, hmem, h2.symm⟩
  · rintro ⟨rq, hmem, heq⟩
    exact ⟨(day, rq), hmem, by rw [heq]⟩

theorem processFaresAux_mem (fares : List RawFare) :
    ∀ (acc r : List (String × RawQuote)) (day : String) (q : RawQuote),
      processFaresAux acc fares = .ok r → (day, q) ∈ r →
      (day, q) ∈ acc ∨ ∃ f ∈ fares, f.unavailable = false ∧
        (∃ v : ℚ, f.price = some (.pdict (some v)) ∧ q.price = v) ∧
        f.day = some day ∧ day ≠ "" := by
  induction fares with
  | nil =>
    intro acc r day q h hm
    cases h
    exact Or.inl hm
  | cons f rest ih =>
    intro acc r day q h hm
    obtain ⟨unav, price, fday, fdep, farr⟩ := f
    unfold processFaresAux at h
    by_cases hskip : (unav || price.isNone) = true
    · rw [if_pos hskip] at h
      rcases ih _ _ _ _ h hm with hin | ⟨g, hg, hrest⟩
      · exact Or.inl hin
      · exact Or.inr ⟨g, List.mem_cons_of_mem _ hg, hrest⟩
    · rw [if_neg hskip] at h
      cases price with
      | none =>
        have h' : processFaresAux acc rest = .ok r := h
        rcases ih _ _ _ _ h' hm with hin | ⟨g, hg, hrest⟩
        · exact Or.inl hin
        · exact Or.inr ⟨g, List.mem_cons_of_mem _ hg, hrest⟩
      | some rp =>
        cases rp with
        | other str =>
          have h' : (Except.error attrErrMsg : Except String (List (String × RawQuote))) =
              .ok r := h
          cases h'
        | pdict v =>
          cases v with
          | none =>
            have h' : processFaresAux acc rest = .ok r := h
            rcases ih _ _ _ _ h' hm with hin | ⟨g, hg, hrest⟩
            · exact Or.inl hin
            · exact Or.inr ⟨g, List.mem_cons_of_mem _ hg, hrest⟩
          | some p =>
            have h2 : (if fday.getD "" ≠ "" then
                processFaresAux (ainsert (fday.getD "") ⟨p, fdep, farr⟩ acc) rest
                else processFaresAux acc rest) = .ok r := h
            have hunav : unav = false := by
              simp only [Option.isNone_some, Bool.or_false] at hskip
              exact Bool.eq_false_iff.2 hskip
            by_cases hday : fday.getD "" ≠ ""
            · rw [if_pos hday] at h2
              rcases ih _ _ _ _ h2 hm with hin | ⟨g, hg, hrest⟩
              · rcases mem_ainsert _ _ _ _ hin with heq | hin'
                · simp only [Prod.mk.injEq] at heq
                  obtain ⟨h1, hq⟩ := heq
                  refine Or.inr ⟨⟨unav, some (.pdict (some p)), fday, fdep, farr⟩,
                    List.mem_cons_self _ _, hunav, ⟨p, rfl, by rw [hq]⟩, ?_, ?_⟩
                  · show fday = some day
                    cases hfd : fday with
                    | none =>
                      rw [hfd] at hday
                      exact absurd rfl hday
                    | some d0 =>
                      rw [hfd] at h1
                      have hd0 : day = d0 := h1
                      rw [hd0]
                  · rw [h1]
                    exact hday
                · exact Or.inl hin'
              · exact Or.inr ⟨g, List.mem_cons_of_mem _ hg, hrest⟩
            · rw [if_neg hday] at h2
              rcases ih _ _ _ _ h2 hm with hin | ⟨g, hg, hrest⟩
              · exact Or.inl hin
              · exact Or.inr ⟨g, List.mem_cons_of_mem _ hg, hrest⟩

/-! ### Supporting lemmas for the month-enumeration claims -/

theorem mIdx_le_of_dateLe (s e : PyDate) (hs : validDate s) (he : validDate e)
    (hse : dateLe s e) :
    mIdxYM (s.year, s.month) ≤ mIdxYM (e.year, e.month) :=
  dateLe_mIdx s e hse hs.2.2.1 he.2.1

theorem ymOfIdx_lt (i j : Nat) (h : i < j) :
    (ymOfIdx i).1 < (ymOfIdx j).1 ∨ ((ymOfIdx i).1 = (ymOfIdx j).1 ∧ (ymOfIdx i).2 < (ymOfIdx j).2) := by
  simp only [ymOfIdx]
  omega

theorem mapRange_getLast (a n : Nat) :
    (((List.range (n + 1)).map (fun i => ymOfIdx (a + i)))).getLast? = some (ymOfIdx (a + n)) := by
  rw [List.range_succ, List.map_append]
  exact List.getLast?_concat _

/-- C6: for valid calendar dates with start not after end,
`months_between` returns the ordered, duplicate-free list of
(year, month) pairs covering every month touched by the span, inclusive
of both endpoints, advancing month-by-month with rollover from month 12
to month 1 of the next year; for equal start and end months the result
is exactly the one pair. -/
theorem months_between_spec (s e : PyDate) (hs : validDate s) (he : validDate e)
    (hse : dateLe s e) :
    ∃ l, months_between s e = some l ∧
      l.head? = some (s.year, s.month) ∧
      l.getLast? = some (e.year, e.month) ∧
      l.Pairwise (fun a b => a.1 < b.1 ∨ (a.1 = b.1 ∧ a.2 < b.2)) ∧
      l.Chain' (fun a b => b = nextMonth a) ∧
      (∀ ym : Ym, ym ∈ l ↔ 1 ≤ ym.2 ∧ ym.2 ≤ 12 ∧
        mIdxYM (s.year, s.month) ≤ mIdxYM ym ∧ mIdxYM ym ≤ mIdxYM (e.year, e.month)) ∧
      ((s.year, s.month) = (e.year, e.month) → l = [(s.year, s.month)]) := by
  have hle := mIdx_le_of_dateLe s e hs he hse
  have heq := months_between_eq s e hs.2.1 hs.2.2.1 he.2.1 he.2.2.1 hle
  refine ⟨_, heq, ?_, ?_, ?_, ?_, ?_, ?_⟩
  · rw [List.range_succ_eq_map, List.map_cons, List.head?_cons, Nat.add_zero,
      ymOfIdx_mIdxYM (s.year, s.month) hs.2.1 hs.2.2.1]
  · rw [mapRange_getLast]
    have : mIdxYM (s.year, s.month) + (mIdxYM (e.year, e.month) - mIdxYM (s.year, s.month)) =
        mIdxYM (e.year, e.month) := by omega
    rw [this, ymOfIdx_mIdxYM (e.year, e.month) he.2.1 he.2.2.1]
  · rw [List.pairwise_map]
    exact (List.pairwise_lt_range _).imp (fun hij => ymOfIdx_lt _ _ (by omega))
  · rw [List.chain'_map]
    rw [List.chain'_range_succ]
    intro m hm
    rw [nextMonth_ymOfIdx]
    all_goals congr 1
  · intro ym
    exact mem_months_between s e hs.2.1 hs.2.2.1 he.2.1 he.2.2.1 hle _ heq ym
  · intro hye
    have hab : mIdxYM (s.year, s.month) = mIdxYM (e.year, e.month) := by rw [hye]
    rw [← hab]
    simp only [Nat.sub_self, Nat.zero_add, List.range_succ_eq_map, List.range_zero,
      List.map_cons, List.map_nil, Nat.add_zero]
    rw [ymOfIdx_mIdxYM (s.year, s.month) hs.2.1 hs.2.2.1]

/-- C1: for a route search over fixed Month Maps (a fixed source and a
consistent cache), the matcher emits a Candidate for a pair
(out_day, ret_day) iff a quote for out_day exists in an outbound Month
Map of the span, a quote for ret_day exists in the return Month Map of
ret_day's (year, month), both dates lie within [start_date, end_date],
and ret_day is out_day plus an integer span in [min_days, max_days];
moreover every emitted Candidate's total equals out_price + ret_price. -/
theorem claim_route_matcher_iff (source : CacheKey → SourceResp) (o d : String)
    (s e : PyDate) (minD maxD : Nat) (curr : String) (cache : Cache) (log : List CacheKey)
    (cands : List Candidate) (cache' : Cache) (log' : List CacheKey)
    (hs : validDate s) (he : validDate e) (hse : dateLe s e)
    (hcons : cacheConsistent source cache)
    (hrun : find_roundtrips_for_route_by_dates source o d s e minD maxD curr cache log =
      (.ok cands, cache', log'))
    (od rd : String) :
    ((∃ c ∈ cands, c.out_day = od ∧ c.ret_day = rd) ↔
      ∃ odt, parseISO od = some odt ∧ dateLe s odt ∧ dateLe odt e ∧
        (∃ ym ∈ (months_between s e).getD [], ∃ q, (od, q) ∈
          monthMapOf source (o, d, ym.1, ym.2, curr)) ∧
        ∃ k, minD ≤ k ∧ k ≤ maxD ∧
          dateLe s (addDays odt k) ∧ dateLe (addDays odt k) e ∧
          rd = formatISO (addDays odt k) ∧
          (alookup rd (monthMapOf source
            (d, o, (addDays odt k).year, (addDays odt k).month, curr))).isSome) ∧
    ∀ c ∈ cands, c.total = c.out_price + c.ret_price := by
  obtain ⟨hcands, hcons2⟩ :=
    find_ok source o d s e minD maxD curr cache log cands cache' log' hcons hrun
  have hle := mIdx_le_of_dateLe s e hs he hse
  have hmb0 := months_between_eq s e hs.2.1 hs.2.2.1 he.2.1 he.2.2.1 hle
  obtain ⟨yml, hmb⟩ : ∃ yml, months_between s e = some yml := ⟨_, hmb0⟩
  have hpure : cands = sortCands (enumerateCandidates s e minD maxD (labelOf o d)
      (buildMaps (fun ym => monthMapOf source (o, d, ym.1, ym.2, curr)) yml)
      (buildMaps (fun ym => monthMapOf source (d, o, ym.1, ym.2, curr)) yml)) := by
    rw [hcands]
    unfold pureRouteCands
    rw [hmb]
  have hmem : ∀ c : Candidate, c ∈ cands ↔
      ∃ ym ∈ yml, ∃ entry ∈ monthMapOf source (o, d, ym.1, ym.2, curr), ∃ odt,
        parseISO entry.1 = some odt ∧ dateLe s odt ∧ dateLe odt e ∧
        ∃ k, minD ≤ k ∧ k ≤ maxD ∧
          candidateForSpan s e
            (buildMaps (fun ym => monthMapOf source (d, o, ym.1, ym.2, curr)) yml)
            (labelOf o d) entry.1 entry.2 odt k = some c := by
    intro c
    rw [hpure, sortCands, mem_isort, mem_enumerateCandidates]
    constructor
    · rintro ⟨ymm, hymm, entry, hentry, hc⟩
      simp only [buildMaps, List.mem_map] at hymm
      rcases hymm with ⟨ym, hym, rfl⟩
      rcases (mem_candidatesForEntry s e minD maxD _ _ entry c).1 hc with
        ⟨odt, h1, h2, h3, k, h4, h5, h6⟩
      exact ⟨ym, hym, entry, hentry, odt, h1, h2, h3, k, h4, h5, h6⟩
    · rintro ⟨ym, hym, entry, hentry, odt, h1, h2, h3, k, h4, h5, h6⟩
      refine ⟨(ym, monthMapOf source (o, d, ym.1, ym.2, curr)), ?_, entry, hentry, ?_⟩
      · simp only [buildMaps, List.mem_map]
        exact ⟨ym, hym, rfl⟩
      · exact (mem_candidatesForEntry s e minD maxD _ _ entry c).2
          ⟨odt, h1, h2, h3, k, h4, h5, h6⟩
  simp only [hmb, Option.getD_some]
  constructor
  · constructor
    · rintro ⟨c, hc, hod, hrd⟩
      rcases (hmem c).1 hc with ⟨ym, hym, entry, hentry, odt, h1, h2, h3, k, h4, h5, h6⟩
      rcases (candidateForSpan_eq_some s e _ _ entry.1 entry.2 odt k c).1 h6 with
        ⟨hr1, hr2, rq, hlk, hcrec⟩
      subst hcrec
      have hod' : entry.1 = od := hod
      have hrd' : formatISO (addDays odt k) = rd := hrd
      subst hod'
      subst hrd'
      refine ⟨odt, h1, h2, h3, ⟨ym, hym, entry.2, hentry⟩, k, h4, h5, hr1, hr2, rfl, ?_⟩
      cases hbm : alookup ((addDays odt k).year, (addDays odt k).month)
          (buildMaps (fun ym => monthMapOf source (d, o, ym.1, ym.2, curr)) yml) with
      | none =>
        rw [hbm] at hlk
        simp only [Option.getD_none] at hlk
        simp [alookup] at hlk
      | some v =>
        rw [hbm] at hlk
        simp only [Option.getD_some] at hlk
        rcases alookup_buildMaps_some _ yml _ v hbm with ⟨hin, hveq⟩
        rw [hveq] at hlk
        rw [hlk]
        rfl
    · rintro ⟨odt, h1, h2, h3, ⟨ym, hym, q, hq⟩, k, h4, h5, hr1, hr2, hrd, hsome⟩
      subst hrd
      rcases Option.isSome_iff_exists.1 hsome with ⟨rq, hrq⟩
      have hodt : validDate odt := parseISO_valid od odt h1
      have hrdt : validDate (addDays odt k) := validDate_addDays k odt hodt
      have hcov : ((addDays odt k).year, (addDays odt k).month) ∈ yml := by
        refine (mem_months_between s e hs.2.1 hs.2.2.1 he.2.1 he.2.2.1 hle yml hmb _).2 ?_
        refine ⟨hrdt.2.1, hrdt.2.2.1, ?_, ?_⟩
        · exact dateLe_mIdx s (addDays odt k) hr1 hs.2.2.1 hrdt.2.1
        · exact dateLe_mIdx (addDays odt k) e hr2 hrdt.2.2.1 he.2.1
      refine ⟨⟨q.price + rq.price, od, formatISO (addDays odt k), q.price, rq.price,
        q.depISO, q.arrISO, rq.depISO, rq.arrISO, labelOf o d⟩, ?_, rfl, rfl⟩
      refine (hmem _).2 ⟨ym, hym, (od, q), hq, odt, h1, h2, h3, k, h4, h5, ?_⟩
      refine (candidateForSpan_eq_some s e _ _ od q odt k _).2 ⟨hr1, hr2, rq, ?_, rfl⟩
      rw [alookup_buildMaps_of_mem _ yml _ hcov]
      exact hrq
  · intro c hc
    rcases (hmem c).1 hc with ⟨ym, hym, entry, hentry, odt, h1, h2, h3, k, h4, h5, h6⟩
    rcases (candidateForSpan_eq_some s e _ _ entry.1 entry.2 odt k c).1 h6 with
      ⟨hr1, hr2, rq, hlk, hcrec⟩
    subst hcrec
    rfl

/-! ### Concrete inputs used by the witnesses (the scenario of spec section 8) -/

instance exceptDecEq {σ α : Type} [DecidableEq σ] [DecidableEq α] : DecidableEq (Except σ α) :=
  fun x y =>
  match x, y with
  | .error e1, .error e2 =>
    if h : e1 = e2 then isTrue (by rw [h]) else isFalse (by intro hc; cases hc; exact h rfl)
  | .error _, .ok _ => isFalse (by intro hc; cases hc)
  | .ok _, .error _ => isFalse (by intro hc; cases hc)
  | .ok a1, .ok a2 =>
    if h : a1 = a2 then isTrue (by rw [h]) else isFalse (by intro hc; cases hc; exact h rfl)

set_option synthInstance.maxSize 2048

set_option maxRecDepth 8000

def mkFare (day : String) (v : ℚ) : RawFare := ⟨false, some (.pdict (some v)), some day, none, none⟩

def srcA : CacheKey → SourceResp := fun k =>
  if k = ("CGN", "PMO", 2025, 6, "EUR") then
    .ok [mkFare "2025-06-01" 50, mkFare "2025-06-02" 40]
  else if k = ("PMO", "CGN", 2025, 6, "EUR") then
    .ok [mkFare "2025-06-04" 60, mkFare "2025-06-05" 70, mkFare "2025-06-06" 55]
  else .fail

def dA : PyDate := ⟨2025, 6, 1⟩

def dB : PyDate := ⟨2025, 6, 10⟩

def dC : PyDate := ⟨2025, 12, 20⟩

def dD : PyDate := ⟨2026, 1, 5⟩

def pC : SearchParams := ⟨"EUR", 3, 5, [("CGN", "PMO"), ("NRN", "TPS")], 5, dA, dB⟩

/-- A source whose second route returns a fare record with a truthy
non-dict `price`, making `f["price"].get("value")` raise. -/
def srcE : CacheKey → SourceResp := fun k =>
  if k = ("CGN", "PMO", 2025, 6, "EUR") then .ok [mkFare "2025-06-01" 50]
  else if k = ("PMO", "CGN", 2025, 6, "EUR") then .ok [mkFare "2025-06-04" 60]
  else if k = ("NRN", "TPS", 2025, 6, "EUR") then
    .ok [⟨false, some (.other "oops"), some "2025-06-03", none, none⟩]
  else .fail

/-- A source returning a negative numeric fare value. -/
def srcNeg : CacheKey → SourceResp := fun _ =>
  .ok [⟨false, some (.pdict (some (-1))), some "2025-06-01", none, none⟩]

theorem claim_route_matcher_iff_witness :
    ∃ c ∈ pureRouteCands srcA "CGN" "PMO" dA dB 3 5 "EUR",
      c.out_day = "2025-06-02" ∧ c.ret_day = "2025-06-06" :=
  ((claim_route_matcher_iff srcA "CGN" "PMO" dA dB 3 5 "EUR" [] []
      (pureRouteCands srcA "CGN" "PMO" dA dB 3 5 "EUR")
      (find_roundtrips_for_route_by_dates srcA "CGN" "PMO" dA dB 3 5 "EUR" [] []).2.1
      (find_roundtrips_for_route_by_dates srcA "CGN" "PMO" dA dB 3 5 "EUR" [] []).2.2
      (by decide) (by decide) (by decide) (cacheConsistent_empty srcA) (by decide!)
      "2025-06-02" "2025-06-06").1).2
    ⟨⟨2025, 6, 2⟩, by decide, by decide, by decide,
      ⟨(2025, 6), by decide, ⟨"2025-06-02", 40, none, none⟩, by decide!⟩,
      4, by decide, by decide, by decide, by decide, by decide, by decide!⟩

/-! ### C2 -/

theorem candLe_iff (a b : Candidate) : candLe a b = true ↔
    (a.total < b.total ∨ (a.total = b.total ∧ strLe a.out_day b.out_day = true)) := by
  simp [candLe, Bool.or_eq_true, Bool.and_eq_true, decide_eq_true_eq]

theorem pairwise_sortCands (l : List Candidate) :
    (sortCands l).Pairwise (fun A B => A.total < B.total ∨
      (A.total = B.total ∧ strLe A.out_day B.out_day = true)) :=
  (pairwise_isort candLe candLe_trans candLe_total l).imp
    (fun hab => (candLe_iff _ _).1 hab)

/-- C2: every candidate sequence returned by the route matcher is sorted
ascending by (total, out_day): any earlier candidate either has a
strictly smaller total, or an equal total and a lexicographically
no-larger outbound day string. -/
theorem claim_ranking_sorted (source : CacheKey → SourceResp) (o d : String) (s e : PyDate)
    (minD maxD : Nat) (curr : String) (cache : Cache) (log : List CacheKey)
    (cands : List Candidate) (cache' : Cache) (log' : List CacheKey)
    (hrun : find_roundtrips_for_route_by_dates source o d s e minD maxD curr cache log =
      (.ok cands, cache', log')) :
    cands.Pairwise (fun A B => A.total < B.total ∨
      (A.total = B.total ∧ strLe A.out_day B.out_day = true)) := by
  unfold find_roundtrips_for_route_by_dates at hrun
  split at hrun
  · cases hrun
  · split at hrun
    · cases hrun
    · split at hrun
      · cases hrun
      · simp only [Prod.mk.injEq, Except.ok.injEq] at hrun
        rw [← hrun.1]
        exact pairwise_sortCands _

theorem claim_ranking_sorted_witness :
    (pureRouteCands srcA "CGN" "PMO" dA dB 3 5 "EUR").Pairwise
      (fun A B => A.total < B.total ∨
        (A.total = B.total ∧ strLe A.out_day B.out_day = true)) :=
  claim_ranking_sorted srcA "CGN" "PMO" dA dB 3 5 "EUR" [] []
    (pureRouteCands srcA "CGN" "PMO" dA dB 3 5 "EUR")
    (find_roundtrips_for_route_by_dates srcA "CGN" "PMO" dA dB 3 5 "EUR" [] []).2.1
    (find_roundtrips_for_route_by_dates srcA "CGN" "PMO" dA dB 3 5 "EUR" [] []).2.2
    (by decide!)

/-! ### C3 -/

/-- C3: on a fault-free run (one whose `finished` payload is actually
emitted) each per-route result is that route's first top_n candidates of
its full (cache-independent) sorted candidate list; with two or more
routes the combined result is the union of ALL candidates of every route
re-sorted by (total, out_day) and truncated to top_n, and with fewer
than two routes it is empty. -/
theorem claim_aggregator (source : CacheKey → SourceResp) (p : SearchParams)
    (out : WorkerOutput) (h : (workerRun source p).1 = .ok out) :
    out.per_route =
      p.routes.foldl (fun acc rt => ainsert (labelOf rt.1 rt.2)
        ((routeCandsOf source p rt).take p.top_n) acc) [] ∧
    out.combined =
      (if 2 ≤ p.routes.length then
        (sortCands ((p.routes.map (routeCandsOf source p)).flatten)).take p.top_n
      else []) :=
  ⟨(workerRun_ok source p out h).2.1, (workerRun_ok source p out h).2.2.1⟩

theorem claim_aggregator_witness :
    ∃ out, (workerRun srcA pC).1 = Except.ok out ∧
      out.per_route =
        pC.routes.foldl (fun acc rt => ainsert (labelOf rt.1 rt.2)
          ((routeCandsOf srcA pC rt).take pC.top_n) acc) [] ∧
      out.combined =
        (if 2 ≤ pC.routes.length then
          (sortCands ((pC.routes.map (routeCandsOf srcA pC)).flatten)).take pC.top_n
        else []) := by
  have hok : (workerRun srcA pC).1 = Except.ok
      ⟨(workerLoop srcA pC pC.routes [] [] [] [] []).per_route,
       (sortCands (workerLoop srcA pC pC.routes [] [] [] [] []).all_cands).take pC.top_n,
       (workerLoop srcA pC pC.routes [] [] [] [] []).chart_series, ""⟩ := by decide!
  exact ⟨_, hok, claim_aggregator srcA pC _ hok⟩

/-! ### C4 -/

/-- C4: within one search run at most one external fetch is issued per
cache key (the instrumentation log of fetched keys has no duplicates,
even when a fetch returns an empty map, which is cached as such), and a
request for a key already present in the cache returns the stored map
unchanged without fetching. -/
theorem claim_cache_single_fetch (source : CacheKey → SourceResp) (p : SearchParams) :
    (workerRun source p).2.Nodup ∧
    ∀ (k : CacheKey) (mm : MonthMap) (cache : Cache) (log : List CacheKey),
      alookup k cache = some mm →
      get_month_map source k cache log = (.ok mm, cache, log) := by
  constructor
  · have hnd := workerLoop_log source p p.routes [] [] [] [] [] logInv_empty
    simp only [workerRun]
    cases hft : (workerLoop source p p.routes [] [] [] [] []).fault with
    | some e => exact hnd
    | none => exact hnd
  · intro k mm cache log h
    exact get_month_map_hit source k cache log mm h

theorem claim_cache_single_fetch_witness :
    (workerRun srcA pC).2.Nodup ∧
    get_month_map srcA ("CGN", "PMO", 2025, 6, "EUR")
      [(("CGN", "PMO", 2025, 6, "EUR"), monthMapOf srcA ("CGN", "PMO", 2025, 6, "EUR"))] [] =
      (.ok (monthMapOf srcA ("CGN", "PMO", 2025, 6, "EUR")),
        [(("CGN", "PMO", 2025, 6, "EUR"), monthMapOf srcA ("CGN", "PMO", 2025, 6, "EUR"))], []) :=
  ⟨(claim_cache_single_fetch srcA pC).1,
    (claim_cache_single_fetch srcA pC).2 _ _ _ _ (by decide!)⟩

/-! ### C5 -/

/-- C5 (code bug): the claimed behaviour — an unexpected fault is caught
and converted to a single error message returned in place of results —
is what the `except` block at lines 240-241 intends, but NOT what the
code does.  `combined` is first bound at line 235, inside the `try`
block and after the route loop, so on any fault during the loop the
`finished.emit` call at line 243 raises `UnboundLocalError` reading
`combined` and nothing is emitted: the caller receives neither an error
message nor (partial) results.  Concretely, on a two-route run whose
second fetch raises `AttributeError`, the loop faults after filling
route 1's per-route entry, and the run's outcome is the unhandled
`UnboundLocalError`, not an emitted payload. -/
theorem claim_fault_no_emission :
    (workerLoop srcE pC pC.routes [] [] [] [] []).fault = some attrErrMsg ∧
    (workerLoop srcE pC pC.routes [] [] [] [] []).per_route ≠ [] ∧
    (workerRun srcE pC).1 = .error unboundLocalMsg := by decide!

/-! ### C6 witness -/

theorem months_between_spec_witness :
    ∃ l, months_between dC dD = some l ∧
      l.head? = some (dC.year, dC.month) ∧
      l.getLast? = some (dD.year, dD.month) ∧
      l.Pairwise (fun a b => a.1 < b.1 ∨ (a.1 = b.1 ∧ a.2 < b.2)) ∧
      l.Chain' (fun a b => b = nextMonth a) ∧
      (∀ ym : Ym, ym ∈ l ↔ 1 ≤ ym.2 ∧ ym.2 ≤ 12 ∧
        mIdxYM (dC.year, dC.month) ≤ mIdxYM ym ∧ mIdxYM ym ≤ mIdxYM (dD.year, dD.month)) ∧
      ((dC.year, dC.month) = (dD.year, dD.month) → l = [(dC.year, dC.month)]) :=
  months_between_spec dC dD (by decide) (by decide) (by decide)

/-! ### C7 -/

/-- C7: the chart series' per-day map sends every distinct out_day
occurring in a route's candidate sequence to the minimum total over all
candidates sharing that out_day, and contains nothing else (lookup is
`none` exactly when the day does not occur). -/
theorem claim_chart_min_per_day (cands : List Candidate) (d : String) :
    alookup d (bestPerDay cands) = specMinPerDay cands d :=
  alookup_bestPerDay cands d

/-! ### C8 -/

/-- C8 (amended): every DayQuote stored in a cached Month Map originates
from a source record that was not marked unavailable and carried a
numeric price value, and the DayQuote's price equals that value — hence
it is non-negative whenever the source's value is; the code itself
performs no sign validation. -/
theorem claim_dayquote_provenance (source : CacheKey → SourceResp) (k : CacheKey)
    (cache : Cache) (log : List CacheKey) (mm : MonthMap) (cache' : Cache)
    (log' : List CacheKey) (hcons : cacheConsistent source cache)
    (h : get_month_map source k cache log = (.ok mm, cache', log'))
    (day : String) (dq : DayQuote) (hmem : (day, dq) ∈ mm) :
    ∃ fares, source k = .ok fares ∧ ∃ f ∈ fares, f.unavailable = false ∧
      (∃ v : ℚ, f.price = some (.pdict (some v)) ∧ dq.price = v ∧ (0 ≤ v → 0 ≤ dq.price)) ∧
      f.day = some day ∧ day ≠ "" := by
  obtain ⟨hmm, hcons2⟩ := get_month_map_ok source k cache log hcons mm cache' log' h
  subst hmm
  unfold monthMapOf at hmem
  cases hf : fetch_cheapest_per_day_map source k with
  | error e =>
    rw [hf] at hmem
    have hmem2 : (day, dq) ∈ ([] : MonthMap) := hmem
    cases hmem2
  | ok raw =>
    rw [hf] at hmem
    have hmem2 : (day, dq) ∈ mapQuotes raw := hmem
    rcases (mem_mapQuotes raw day dq).1 hmem2 with ⟨rq, hrq, hdq⟩
    unfold fetch_cheapest_per_day_map at hf
    cases hsk : source k with
    | fail =>
      rw [hsk] at hf
      have hf2 : (Except.ok [] : Except String (List (String × RawQuote))) = .ok raw := hf
      cases hf2
      cases hrq
    | ok fares =>
      rw [hsk] at hf
      have hf2 : processFaresAux [] fares = .ok raw := hf
      rcases processFaresAux_mem fares [] raw day rq hf2 hrq with
        hin | ⟨f, hfm, hunav, ⟨v, hv, hpv⟩, hfd, hde⟩
      · cases hin
      · refine ⟨fares, rfl, f, hfm, hunav, ⟨v, hv, ?_, ?_⟩, hfd, hde⟩
        · rw [hdq]
          exact hpv
        · intro hv0
          rw [hdq]
          show (0 : ℚ) ≤ rq.price
          rw [hpv]
          exact hv0

theorem claim_dayquote_provenance_witness :
    ∃ fares, srcA ("CGN", "PMO", 2025, 6, "EUR") = .ok fares ∧ ∃ f ∈ fares,
      f.unavailable = false ∧
      (∃ v : ℚ, f.price = some (.pdict (some v)) ∧
        (⟨"2025-06-01", 50, none, none⟩ : DayQuote).price = v ∧
        (0 ≤ v → 0 ≤ (⟨"2025-06-01", 50, none, none⟩ : DayQuote).price)) ∧
      f.day = some "2025-06-01" ∧ "2025-06-01" ≠ "" :=
  claim_dayquote_provenance srcA ("CGN", "PMO", 2025, 6, "EUR") [] []
    (monthMapOf srcA ("CGN", "PMO", 2025, 6, "EUR"))
    (get_month_map srcA ("CGN", "PMO", 2025, 6, "EUR") [] []).2.1
    (get_month_map srcA ("CGN", "PMO", 2025, 6, "EUR") [] []).2.2
    (cacheConsistent_empty srcA) (by decide!) "2025-06-01"
    ⟨"2025-06-01", 50, none, none⟩ (by decide!)

/-- C8 counterexample: a source record with a negative numeric price
value is stored as-is — `get_month_map` caches a Month Map containing a
DayQuote whose price is negative, refuting unconditional
non-negativity. -/
theorem claim_dayquote_nonneg_counterexample :
    get_month_map srcNeg ("CGN", "PMO", 2025, 6, "EUR") [] [] =
      (.ok [("2025-06-01", ⟨"2025-06-01", -1, none, none⟩)],
        [(("CGN", "PMO", 2025, 6, "EUR"), [("2025-06-01", ⟨"2025-06-01", -1, none, none⟩)])],
        [("CGN", "PMO", 2025, 6, "EUR")]) ∧
    (("2025-06-01", (⟨"2025-06-01", -1, none, none⟩ : DayQuote)) ∈
      [("2025-06-01", (⟨"2025-06-01", -1, none, none⟩ : DayQuote))]) ∧
    ((⟨"2025-06-01", -1, none, none⟩ : DayQuote)).price < 0 := by decide!

/-! ### C9 -/

/-- C9: `months_between` terminates for every pair of valid calendar
dates with start ≤ end — the loop (modelled by exact fuel) returns a
result, and that result reaches end_date's (year, month) pair. -/
theorem claim_months_between_total (s e : PyDate) (hs : validDate s) (he : validDate e)
    (hse : dateLe s e) :
    ∃ l, months_between s e = some l ∧ l.getLast? = some (e.year, e.month) := by
  have hle := mIdx_le_of_dateLe s e hs he hse
  have heq := months_between_eq s e hs.2.1 hs.2.2.1 he.2.1 he.2.2.1 hle
  refine ⟨_, heq, ?_⟩
  rw [mapRange_getLast]
  have h2 : mIdxYM (s.year, s.month) + (mIdxYM (e.year, e.month) - mIdxYM (s.year, s.month)) =
      mIdxYM (e.year, e.month) := by omega
  rw [h2, ymOfIdx_mIdxYM (e.year, e.month) he.2.1 he.2.2.1]

theorem claim_months_between_total_witness :
    ∃ l, months_between dA dB = some l ∧ l.getLast? = some (dB.year, dB.month) :=
  claim_months_between_total dA dB (by decide) (by decide) (by decide)

/-! ### C10 -/

/-- C10: the matcher is total on malformed month-map keys — an outbound
entry whose day key does not parse as an ISO date is silently skipped,
producing no candidate and no error, and the chart-point builder
likewise silently drops an entry whose day string fails to parse. -/
theorem claim_malformed_day_skipped (s e : PyDate) (minD maxD : Nat)
    (retMaps : List (Ym × MonthMap)) (label : String) (dstr : String) (q : DayQuote)
    (p : ℚ) (rest : List (String × ℚ)) (h : parseISO dstr = none) :
    candidatesForEntry s e minD maxD retMaps label (dstr, q) = [] ∧
    chartPoints ((dstr, p) :: rest) = chartPoints rest := by
  constructor
  · simp [candidatesForEntry, h]
  · simp [chartPoints, h]

theorem claim_malformed_day_skipped_witness :
    candidatesForEntry dA dB 3 5 [] (labelOf "CGN" "PMO")
      ("not-a-date", ⟨"not-a-date", 10, none, none⟩) = [] ∧
    chartPoints (("not-a-date", (10 : ℚ)) :: [("2025-06-01", 95)]) =
      chartPoints [("2025-06-01", 95)] :=
  claim_malformed_day_skipped dA dB 3 5 [] (labelOf "CGN" "PMO") "not-a-date"
    ⟨"not-a-date", 10, none, none⟩ 10 [("2025-06-01", 95)] (by decide)
